import Mathlib

/-!
Verification of the vai SQLite-backed cache (package sqlcache) against its
natural-language specification.

The development shallowly embeds the store generations that appear in the
sources:

* the current generation, sqlThreadSafeStore of thead_safe_store.go
  (namespace TSS below): an objects table keyed by a unique string, an
  indices table (name, value, key) with a foreign key ON DELETE CASCADE,
  writes in one transaction each;
* the older sqlIndexer generation of sqlstore.go / sqlstore_indexer.go
  (namespace OldIx): objects carry a rowid, indices reference object_id,
  Update only rewrites the blob;
* the VersionedIndexer of the versioned sources (namespace VIX): an
  object_history table (key, version, deleted, object) maintained by
  after-upsert / after-delete hooks.

SQL tables are lists of rows; a statement's committed effect is a function
on those lists.  An operation that returns Except.error models a statement
or transaction that failed: the transaction is not committed, so the caller
observes the unchanged state.  IO failures of the SQLite engine itself are
out of scope; Except.error values here are the codec and user-function
errors the Go code returns (and the modelled panic of initSchema).
-/

namespace Vai

variable {σ β : Type}

/-- Per-store configuration: the registered indexers (cache.Indexers, a map
from index name to IndexFunc) and the gob codec, which the engine sees as an
opaque pair of fallible functions. -/
structure Config (σ β : Type) where
  indexers : List (String × (σ → Except String (List String)))
  enc : σ → Except String β
  dec : β → Except String σ

/-- Lookup of an indexer by name (Go: s.indexers[indexName], nil when the
name is not registered). -/
def lookupIdxFn (indexers : List (String × (σ → Except String (List String))))
    (name : String) : Option (σ → Except String (List String)) :=
  match indexers with
  | [] => none
  | (n, f) :: rest => if n = name then some f else lookupIdxFn rest name

/-- State of the sqlThreadSafeStore database: the objects table
(key VARCHAR UNIQUE PRIMARY KEY, object BLOB) and the indices table
(name, value, key) with PRIMARY KEY (name, value, key) and
key REFERENCES objects(key) ON DELETE CASCADE. -/
structure DB (β : Type) where
  objects : List (String × β)
  indices : List (String × String × String)
deriving DecidableEq

/-- The freshly initialised database (initSchema creates empty tables). -/
def emptyDB : DB β := { objects := [], indices := [] }

/-- SELECT object FROM objects WHERE key = ? (keys are unique). -/
def objLookup : List (String × β) → String → Option β
  | [], _ => none
  | p :: rest, k => if p.1 = k then some p.2 else objLookup rest k

/-- INSERT INTO objects(key, object) VALUES (?, ?) ON CONFLICT DO UPDATE SET
object = excluded.object: replace the blob of the existing row for the key,
or insert a fresh row. -/
def upsertRow : List (String × β) → String → β → List (String × β)
  | [], k, b => [(k, b)]
  | p :: rest, k, b => if p.1 = k then (k, b) :: rest else p :: upsertRow rest k b

/-- DELETE FROM indices WHERE key = ?. -/
def deleteIdxRows : List (String × String × String) → String → List (String × String × String)
  | [], _ => []
  | r :: rest, k => if r.2.2 = k then deleteIdxRows rest k else r :: deleteIdxRows rest k

/-- DELETE FROM objects WHERE key = ?. -/
def deleteObjRow : List (String × β) → String → List (String × β)
  | [], _ => []
  | p :: rest, k => if p.1 = k then deleteObjRow rest k else p :: deleteObjRow rest k

/-- The index fan-out a SafeAdd inserts: for each registered indexer, one
(name, value, key) row per value the IndexFunc returns on the object.  A
user-function error aborts the surrounding transaction. -/
def indexRowsFor : List (String × (σ → Except String (List String))) → σ → String →
    Except String (List (String × String × String))
  | [], _, _ => .ok []
  | (n, f) :: rest, o, k =>
    match f o with
    | .error e => .error e
    | .ok vs =>
      match indexRowsFor rest o k with
      | .error e => .error e
      | .ok rows => .ok (vs.map (fun v => (n, v, k)) ++ rows)

namespace TSS

/-- SafeAdd: encode the object, then in one transaction upsert the object
row, delete the key's prior index rows and insert the new fan-out.  Any
error leaves the transaction uncommitted, so the caller sees the input
state unchanged. -/
def SafeAdd (cfg : Config σ β) (db : DB β) (k : String) (o : σ) : Except String (DB β) :=
  match cfg.enc o with
  | .error e => .error e
  | .ok b =>
    match indexRowsFor cfg.indexers o k with
    | .error e => .error e
    | .ok newRows =>
      .ok { objects := upsertRow db.objects k b
            indices := deleteIdxRows db.indices k ++ newRows }

/-- SafeUpdate delegates to SafeAdd. -/
def SafeUpdate (cfg : Config σ β) (db : DB β) (k : String) (o : σ) : Except String (DB β) :=
  SafeAdd cfg db k o

/-- SafeDelete: DELETE FROM objects WHERE key = ?; the foreign key
(ON DELETE CASCADE, foreign_keys=on) removes the index rows of the deleted
object row.  Deleting an absent key is a no-op. -/
def SafeDelete (db : DB β) (k : String) : DB β :=
  if (objLookup db.objects k).isSome then
    { objects := deleteObjRow db.objects k
      indices := deleteIdxRows db.indices k }
  else db

/-- SafeGet: SELECT object FROM objects WHERE key = ?, decoding the blob;
sql.ErrNoRows becomes (nil, false, nil), modelled as ok none. -/
def SafeGet (cfg : Config σ β) (db : DB β) (k : String) : Except String (Option σ) :=
  match objLookup db.objects k with
  | none => .ok none
  | some b =>
    match cfg.dec b with
    | .error e => .error e
    | .ok o => .ok (some o)

/-- Decode a list of blobs in order (processObjectRows / queryObjects). -/
def decodeAll (cfg : Config σ β) : List β → Except String (List σ)
  | [] => .ok []
  | b :: rest =>
    match cfg.dec b with
    | .error e => .error e
    | .ok o =>
      match decodeAll cfg rest with
      | .error e => .error e
      | .ok os => .ok (o :: os)

/-- SELECT key FROM indices WHERE name = ? AND value = ? (in table order,
duplicates kept; DISTINCT is applied by the callers that ask for it). -/
def keysFromIndex (indices : List (String × String × String)) (name value : String) :
    List String :=
  (indices.filter (fun r => decide (r.1 = name ∧ r.2.1 = value))).map (fun r => r.2.2)

/-- ByIndex: SELECT object FROM objects WHERE key IN (SELECT key FROM indices
WHERE name = ? AND value = ?), decoded.  Note: unlike Index and IndexKeys,
ByIndex performs no registration check on the index name. -/
def ByIndex (cfg : Config σ β) (db : DB β) (name value : String) : Except String (List σ) :=
  decodeAll cfg
    ((db.objects.filter (fun p => decide (p.1 ∈ keysFromIndex db.indices name value))).map
      (fun p => p.2))

/-- IndexKeys: unknown names are rejected, then SELECT DISTINCT key FROM
indices WHERE name = ? AND value = ?. -/
def IndexKeys (cfg : Config σ β) (db : DB β) (name value : String) :
    Except String (List String) :=
  match lookupIdxFn cfg.indexers name with
  | none => .error ("Index with name " ++ name ++ " does not exist")
  | some _ => .ok (keysFromIndex db.indices name value).dedup

/-- Index: look up the IndexFunc (unknown names are rejected), apply it to
the object; an empty value list returns nil, a single value delegates to
ByIndex, several values run the dynamically assembled IN (...) query. -/
def Index (cfg : Config σ β) (db : DB β) (name : String) (o : σ) : Except String (List σ) :=
  match lookupIdxFn cfg.indexers name with
  | none => .error ("Index with name " ++ name ++ " does not exist")
  | some f =>
    match f o with
    | .error e => .error e
    | .ok values =>
      match values with
      | [] => .ok []
      | [v] => ByIndex cfg db name v
      | _ =>
        decodeAll cfg
          ((db.objects.filter (fun p => decide (∃ v ∈ values,
            p.1 ∈ keysFromIndex db.indices name v))).map (fun p => p.2))

/-- The cascade of DELETE FROM objects: index rows referencing a (then
deleted) object row are removed; rows whose key matches no object row are
untouched, though the foreign key prevents such rows from ever arising. -/
def cascadeAll (objects : List (String × β)) :
    List (String × String × String) → List (String × String × String)
  | [] => []
  | r :: rest =>
    if (objLookup objects r.2.2).isSome then cascadeAll objects rest
    else r :: cascadeAll objects rest

/-- DELETE FROM objects: every object row is removed and the cascade fires
for each of them. -/
def DeleteAll (db : DB β) : DB β :=
  { objects := [], indices := cascadeAll db.objects db.indices }

/-- The SafeAdd loop of SafeReplace: each entry is upserted in its own
transaction; the first error stops the loop, leaving the already committed
entries in place. -/
def AddLoop (cfg : Config σ β) (db : DB β) :
    List (String × σ) → DB β × Option String
  | [] => (db, none)
  | (k, o) :: rest =>
    match SafeAdd cfg db k o with
    | .error e => (db, some e)
    | .ok db' => AddLoop cfg db' rest

/-- SafeReplace: executes (and commits) DELETE FROM objects, then calls
SafeAdd for each entry of the map.  The delete-all and each upsert are
separate transactions; the pair returned is the committed state together
with the error, if any, that SafeReplace surfaced. -/
def SafeReplace (cfg : Config σ β) (db : DB β) (entries : List (String × σ)) :
    DB β × Option String :=
  AddLoop cfg (DeleteAll db) entries

end TSS

/-- The schema statements initSchema executes on the fresh database. -/
def schemaStmts : List String :=
  [ "DROP TABLE IF EXISTS indices"
  , "DROP TABLE IF EXISTS objects"
  , "CREATE TABLE objects (key VARCHAR UNIQUE NOT NULL PRIMARY KEY, object BLOB)"
  , "CREATE TABLE indices (name VARCHAR NOT NULL, value VARCHAR NOT NULL, key VARCHAR NOT NULL REFERENCES objects(key) ON DELETE CASCADE, PRIMARY KEY (name, value, key))"
  , "CREATE INDEX indices_name_value_index ON indices(name, value)" ]

/-- The sanity loop of initSchema: the first registered indexer name that
contains a double quote panics (modelled as Except.error) before any schema
statement runs. -/
def checkIndexerNames : List String → Except String Unit
  | [] => .ok ()
  | n :: rest =>
    if n.contains '\"' then
      .error "Quote characters in indexer names are not supported"
    else checkIndexerNames rest

/-- initSchema: run the sanity check over the registered indexer names,
then apply the schema statements; ok returns the statements that were
executed, error means the construction panicked before applying any. -/
def initSchema (names : List String) : Except String (List String) :=
  match checkIndexerNames names with
  | .error e => .error e
  | .ok _ => .ok schemaStmts

/-- One write operation against the thread-safe store, as driven by the
change feed. -/
inductive WOp (σ : Type) where
  | add (k : String) (o : σ)
  | update (k : String) (o : σ)
  | del (k : String)
  | replace (entries : List (String × σ))

/-- The committed state after one write: a failed Add/Update leaves the
state unchanged (the transaction never commits); Replace commits whatever
its sub-transactions committed before the error. -/
def applyWOp (cfg : Config σ β) (db : DB β) : WOp σ → DB β
  | .add k o =>
    match TSS.SafeAdd cfg db k o with
    | .ok db' => db'
    | .error _ => db
  | .update k o =>
    match TSS.SafeUpdate cfg db k o with
    | .ok db' => db'
    | .error _ => db
  | .del k => TSS.SafeDelete db k
  | .replace es => (TSS.SafeReplace cfg db es).1

/-- The state after a whole history of writes. -/
def applyWOps (cfg : Config σ β) (db : DB β) : List (WOp σ) → DB β
  | [] => db
  | op :: rest => applyWOps cfg (applyWOp cfg db op) rest

/-- The latest object stored under a key: the decoded blob of the key's
object row. -/
def latestObj (cfg : Config σ β) (db : DB β) (k : String) : Option σ :=
  match objLookup db.objects k with
  | none => none
  | some b => (cfg.dec b).toOption

/-- The claim's description of one index row: name is a registered indexer
and value is among the values that indexer yields on the latest object
stored under the key (so no such row exists when no object is stored). -/
def ClaimRowSpec (cfg : Config σ β) (db : DB β) (n v k : String) : Prop :=
  ∃ o, latestObj cfg db k = some o ∧
    ∃ f, lookupIdxFn cfg.indexers n = some f ∧
      ∃ vs, f o = .ok vs ∧ v ∈ vs

/-- Configuration of the older sqlIndexer generation (sqlstore.go): the
KeyFunc is injected and the store derives keys from objects. -/
structure OldConfig (σ β : Type) where
  keyfunc : σ → Except String String
  indexers : List (String × (σ → Except String (List String)))
  enc : σ → Except String β
  dec : β → Except String σ

/-- State of the older sqlIndexer generation: objects carry a rowid
(id INTEGER PRIMARY KEY, key VARCHAR UNIQUE NOT NULL, object BLOB) and
indices reference object_id (name, value, object_id). -/
structure OldDB (β : Type) where
  objects : List (Nat × String × β)
  nextId : Nat
  indices : List (String × String × Nat)
deriving DecidableEq

/-- The freshly initialised old-generation database. -/
def emptyOldDB : OldDB β := { objects := [], nextId := 1, indices := [] }

/-- Old-generation index fan-out: (name, value, object_id) rows. -/
def oldIndexRowsFor : List (String × (σ → Except String (List String))) → σ → Nat →
    Except String (List (String × String × Nat))
  | [], _, _ => .ok []
  | (n, f) :: rest, o, oid =>
    match f o with
    | .error e => .error e
    | .ok vs =>
      match oldIndexRowsFor rest o oid with
      | .error e => .error e
      | .ok rows => .ok (vs.map (fun v => (n, v, oid)) ++ rows)

namespace OldIx

/-- sqlIndexer.Add of sqlstore.go: derive the key, encode, then in one
transaction INSERT INTO objects(key, object) VALUES (?, ?) — a plain insert
that fails on an existing key — take LastInsertId and insert one
(name, value, object_id) row per indexer value.  No prior index rows are
deleted (a fresh key has none). -/
def Add (cfg : OldConfig σ β) (db : OldDB β) (o : σ) : Except String (OldDB β) :=
  match cfg.keyfunc o with
  | .error e => .error e
  | .ok k =>
    match cfg.enc o with
    | .error e => .error e
    | .ok b =>
      if db.objects.any (fun r => decide (r.2.1 = k)) then
        .error "UNIQUE constraint failed: objects.key"
      else
        match oldIndexRowsFor cfg.indexers o db.nextId with
        | .error e => .error e
        | .ok newRows =>
          .ok { objects := db.objects ++ [(db.nextId, k, b)]
                nextId := db.nextId + 1
                indices := db.indices ++ newRows }

/-- sqlIndexer.Update of sqlstore.go: derive the key, encode, then run
UPDATE objects SET object = ? WHERE key = ? — the blob of the key's row is
replaced and the indices table is not touched at all. -/
def Update (cfg : OldConfig σ β) (db : OldDB β) (o : σ) : Except String (OldDB β) :=
  match cfg.keyfunc o with
  | .error e => .error e
  | .ok k =>
    match cfg.enc o with
    | .error e => .error e
    | .ok b =>
      .ok { db with objects := db.objects.map (fun r => if r.2.1 = k then (r.1, k, b) else r) }

/-- Old-generation decode loop (processObjectRows). -/
def decodeAll (cfg : OldConfig σ β) : List β → Except String (List σ)
  | [] => .ok []
  | b :: rest =>
    match cfg.dec b with
    | .error e => .error e
    | .ok o =>
      match decodeAll cfg rest with
      | .error e => .error e
      | .ok os => .ok (o :: os)

/-- ByIndex of sqlstore_indexer.go: SELECT object FROM objects WHERE id IN
(SELECT object_id FROM indices WHERE name = ? AND value = ?), decoded. -/
def ByIndex (cfg : OldConfig σ β) (db : OldDB β) (name value : String) :
    Except String (List σ) :=
  decodeAll cfg
    ((db.objects.filter (fun r => db.indices.any (fun i =>
      decide (i.1 = name ∧ i.2.1 = value ∧ i.2.2 = r.1)))).map (fun r => r.2.2))

/-- Index of sqlstore_indexer.go: unknown names are rejected; an empty
value list returns nil.  In the single-value branch the source calls
ByIndex but discards its (read-only, side-effect-free) result and falls
through, so every non-empty value list runs the dynamically assembled
SELECT object FROM objects WHERE id IN (SELECT object_id FROM indices
WHERE name = ? AND value IN (...)) query. -/
def Index (cfg : OldConfig σ β) (db : OldDB β) (name : String) (o : σ) :
    Except String (List σ) :=
  match lookupIdxFn cfg.indexers name with
  | none => .error ("Index with name " ++ name ++ " does not exist")
  | some f =>
    match f o with
    | .error e => .error e
    | .ok values =>
      match values with
      | [] => .ok []
      | _ =>
        decodeAll cfg
          ((db.objects.filter (fun r => db.indices.any (fun i =>
            decide (i.1 = name ∧ i.2.1 ∈ values ∧ i.2.2 = r.1)))).map (fun r => r.2.2))

end OldIx

/-- One row of the object_history table of the VersionedIndexer:
key VARCHAR, version INTEGER, deleted INTEGER DEFAULT 0, object BLOB,
PRIMARY KEY (key, version). -/
structure HRow (β : Type) where
  key : String
  version : Int
  deleted : Bool
  object : β
deriving DecidableEq

/-- State of a VersionedIndexer: the base Indexer tables plus the
object_history table. -/
structure VDB (β : Type) where
  base : DB β
  history : List (HRow β)
deriving DecidableEq

/-- The freshly initialised versioned database. -/
def emptyVDB : VDB β := { base := emptyDB, history := [] }

/-- SELECT MAX(version) FROM object_history WHERE key = ?. -/
def maxVerOf : List (HRow β) → String → Option Int
  | [], _ => none
  | r :: rest, k =>
    if r.key = k then
      some (match maxVerOf rest k with
            | none => r.version
            | some mv => max r.version mv)
    else maxVerOf rest k

/-- The after-upsert hook statement: INSERT INTO object_history(key,
version, deleted, object) SELECT ?, ?, 0, object FROM objects WHERE key = ?
ON CONFLICT DO UPDATE SET object = excluded.object, deleted = 0.  The
primary key (key, version) admits at most one conflicting row. -/
def upsertHist (hist : List (HRow β)) (k : String) (v : Int) (b : β) : List (HRow β) :=
  if hist.any (fun r => decide (r.key = k ∧ r.version = v)) then
    hist.map (fun r => if r.key = k ∧ r.version = v then ⟨k, v, false, b⟩ else r)
  else hist ++ [⟨k, v, false, b⟩]

/-- The after-delete hook statement: UPDATE object_history SET deleted = 1
WHERE key = ? AND version = (SELECT MAX(version) FROM object_history WHERE
key = ?); a key with no history rows is untouched. -/
def markDeleted (hist : List (HRow β)) (k : String) : List (HRow β) :=
  match maxVerOf hist k with
  | none => hist
  | some mv =>
    hist.map (fun r => if r.key = k ∧ r.version = mv then { r with deleted := true } else r)

namespace VIX

/-- Modelled from the spec: the hook-carrying base Indexer (its source file
is not in the repository; part_005 registers its hooks and the spec section
on the Indexer contract describes Upsert).  Upsert runs the base upsert of
the object and index rows (the same transaction body as TSS.SafeAdd) and
then the AfterUpsert hook of part_005, which copies the just-written blob
into object_history under the version the VersionFunc extracted from the
object (the argument v models a successful VersionFunc call).  Any error
rolls the whole transaction back. -/
def Upsert (cfg : Config σ β) (db : VDB β) (k : String) (o : σ) (v : Int) :
    Except String (VDB β) :=
  match TSS.SafeAdd cfg db.base k o with
  | .error e => .error e
  | .ok base' =>
    match objLookup base'.objects k with
    | none => .ok { base := base', history := db.history }
    | some b => .ok { base := base', history := upsertHist db.history k v b }

/-- Modelled from the spec: DeleteByKey of the hook-carrying base Indexer —
the base delete of the object row (cascading away its index rows) followed
by the AfterDelete hook of part_005, which tombstones the key's
maximum-version history row. -/
def DeleteByKey (db : VDB β) (k : String) : VDB β :=
  { base := TSS.SafeDelete db.base k, history := markDeleted db.history k }

/-- SELECT object FROM object_history WHERE key = ? AND version = ?
(the primary key admits at most one row). -/
def histLookup : List (HRow β) → String → Int → Option (HRow β)
  | [], _, _ => none
  | r :: rest, k, v => if r.key = k ∧ r.version = v then some r else histLookup rest k v

/-- GetByKeyAndVersion of part_005: the exact (key, version) row is fetched
regardless of its deleted flag and its blob decoded; no row means
(nil, false, nil), modelled as ok none. -/
def GetByKeyAndVersion (cfg : Config σ β) (db : VDB β) (k : String) (v : Int) :
    Except String (Option σ) :=
  match histLookup db.history k v with
  | none => .ok none
  | some r =>
    match cfg.dec r.object with
    | .error e => .error e
    | .ok o => .ok (some o)

/-- SELECT MAX(version) FROM object_history WHERE key = ? AND version <= ?. -/
def maxVerLE : List (HRow β) → String → Int → Option Int
  | [], _, _ => none
  | r :: rest, k, R =>
    if r.key = k ∧ r.version ≤ R then
      some (match maxVerLE rest k R with
            | none => r.version
            | some mv => max r.version mv)
    else maxVerLE rest k R

/-- Modelled from the spec: the historical selector of ListByOptions (the
ListOptionIndexer source is not in the repository) — SELECT object FROM
object_history h1 WHERE version <= R AND deleted = 0 AND version = (SELECT
MAX(version) FROM object_history h2 WHERE h2.key = h1.key AND h2.version <=
R). -/
def selectAtRevision (hist : List (HRow β)) (R : Int) : List (HRow β) :=
  hist.filter (fun r =>
    decide (r.deleted = false ∧ r.version ≤ R ∧ maxVerLE hist r.key R = some r.version))

/-- Decode the blobs of a list of history rows in order (queryObjects). -/
def decodeHist (cfg : Config σ β) : List (HRow β) → Except String (List σ)
  | [] => .ok []
  | r :: rest =>
    match cfg.dec r.object with
    | .error e => .error e
    | .ok o =>
      match decodeHist cfg rest with
      | .error e => .error e
      | .ok os => .ok (o :: os)

/-- Modelled from the spec: ListByOptions with a non-empty revision string
and no filters, sorting or pagination — the historical selector over the
history table, decoded. -/
def ListAtRevision (cfg : Config σ β) (db : VDB β) (R : Int) : Except String (List σ) :=
  decodeHist cfg (selectAtRevision db.history R)

end VIX

/-- One write operation against a VersionedIndexer: an upsert carries the
version the VersionFunc extracts from the object. -/
inductive VOp (σ : Type) where
  | upsert (k : String) (o : σ) (v : Int)
  | del (k : String)

/-- The committed state after one versioned write: a failed upsert leaves
the state unchanged. -/
def applyVOp (cfg : Config σ β) (db : VDB β) : VOp σ → VDB β
  | .upsert k o v =>
    match VIX.Upsert cfg db k o v with
    | .ok db' => db'
    | .error _ => db
  | .del k => VIX.DeleteByKey db k

/-- The versioned state after a whole history of writes. -/
def applyVOps (cfg : Config σ β) (db : VDB β) : List (VOp σ) → VDB β
  | [] => db
  | op :: rest => applyVOps cfg (applyVOp cfg db op) rest

/-- The (key, version) pairs of the upserts of an operation list, in
order. -/
def upsertsOf : List (VOp σ) → List (String × Int)
  | [] => []
  | .upsert k _ v :: rest => (k, v) :: upsertsOf rest
  | .del _ :: rest => upsertsOf rest

/-- Per-key monotone versions: every upsert's version is less than or equal
to the versions of all later upserts on the same key (the spec's invariant
4: caller-supplied versions are monotonically non-decreasing per key). -/
def monoUpserts : List (String × Int) → Bool
  | [] => true
  | (k, v) :: rest =>
    rest.all (fun p => decide (p.1 = k → v ≤ p.2)) && monoUpserts rest

/-- The key's maximum-version history row exists and is not a tombstone:
some version is the maximum for the key and every row of the key at that
version has deleted = 0. -/
def LatestLive (hist : List (HRow β)) (k : String) : Prop :=
  ∃ v, maxVerOf hist k = some v ∧
    ∀ r ∈ hist, r.key = k → r.version = v → r.deleted = false

/-- The key's maximum-version history row exists and is a tombstone. -/
def LatestTombstoned (hist : List (HRow β)) (k : String) : Prop :=
  ∃ v, maxVerOf hist k = some v ∧
    ∀ r ∈ hist, r.key = k → r.version = v → r.deleted = true

/-- The claim's index/object consistency at every key: a row is in the
indices table exactly when ClaimRowSpec describes it. -/
def GoodDB (cfg : Config σ β) (db : DB β) : Prop :=
  ∀ n v k, ((n, v, k) ∈ db.indices ↔ ClaimRowSpec cfg db n v k)

/-- The foreign-key invariant of the indices table: every index row
references an existing object row. -/
def fkOk (db : DB β) : Bool :=
  db.indices.all (fun r => (objLookup db.objects r.2.2).isSome)

/-- The versioned invariant of claim C7: every key with a current object
record has a live (deleted = 0) maximum-version history row. -/
def VInv (db : VDB β) : Prop :=
  ∀ k, (objLookup db.base.objects k).isSome → LatestLive db.history k

/-- Every history version already recorded for a key is at most the version
of every upcoming upsert on that key (the carried induction hypothesis that
the spec's monotone-version assumption yields). -/
def HistBound (hist : List (HRow β)) (ups : List (String × Int)) : Prop :=
  ∀ r ∈ hist, ∀ p ∈ ups, p.1 = r.key → r.version ≤ p.2

/-- Every blob stored in the versioned state is the encoding of some
object (true of every reachable state, since blobs only enter through the
codec). -/
def EncImage (cfg : Config σ β) (db : VDB β) : Prop :=
  (∀ p ∈ db.base.objects, ∃ o, cfg.enc o = .ok p.2) ∧
    (∀ r ∈ db.history, ∃ o, cfg.enc o = .ok r.object)

/-! Concrete instances used by the closed counterexample and witness
theorems. -/

/-- A one-indexer configuration over string objects with the identity
codec: the by_val index yields the object itself. -/
def wCfg : Config String String :=
  { indexers := [("by_val", fun o => .ok [o])]
    enc := fun o => .ok o
    dec := fun b => .ok b }

/-- A small thread-safe store state: one object under key k, indexed. -/
def wDB : DB String :=
  { objects := [("k", "x")], indices := [("by_val", "x", "k")] }

/-- Old-generation configuration over (key, value) pairs with the identity
codec: the key is the first component, by_val indexes the second. -/
def oCfg : OldConfig (String × String) (String × String) :=
  { keyfunc := fun o => .ok o.1
    indexers := [("by_val", fun o => .ok [o.2])]
    enc := fun o => .ok o
    dec := fun b => .ok b }

/-- The old-generation state after Add ("a", "b") on the fresh store. -/
def oDB1 : OldDB (String × String) :=
  { objects := [(1, "a", ("a", "b"))], nextId := 2, indices := [("by_val", "b", 1)] }

/-- The old-generation state after the subsequent Update ("a", "c"): the
blob is rewritten, the index row still records the stale value b. -/
def oDB2 : OldDB (String × String) :=
  { objects := [(1, "a", ("a", "c"))], nextId := 2, indices := [("by_val", "b", 1)] }

/-- Old-generation configuration over plain strings with the identity
codec and key function (for the single-value Index delegation witness). -/
def oSCfg : OldConfig String String :=
  { keyfunc := fun o => .ok o
    indexers := [("by_val", fun o => .ok [o])]
    enc := fun o => .ok o
    dec := fun b => .ok b }

/-- A small old-generation state over strings. -/
def oSDB : OldDB String :=
  { objects := [(1, "x", "x")], nextId := 2, indices := [("by_val", "x", 1)] }

/-- A configuration whose encoder fails on the object false: Bool objects,
Nat blobs. -/
def failCfg : Config Bool Nat :=
  { indexers := []
    enc := fun o => if o then .ok 1 else .error "gob: encode failed"
    dec := fun b => .ok (decide (b = 1)) }

/-- A store holding one encodable object before the failing Replace. -/
def failDB : DB Nat := { objects := [("k1", 1)], indices := [] }

/-- A small write history for the thread-safe store: add, overwrite,
delete a missing key, then replace everything by one entry. -/
def wOps : List (WOp String) :=
  [WOp.add "k" "x", WOp.update "k" "y", WOp.del "z",
    WOp.replace [("k2", "u")]]

/-- A small versioned history: key k appears at version 1, is deleted, and
is re-added at version 3. -/
def vOps : List (VOp String) :=
  [VOp.upsert "k" "x" 1, VOp.del "k", VOp.upsert "k" "y" 3]

/-! ## Lemmas on the table-level statement semantics -/

theorem objLookup_upsertRow_self (l : List (String × β)) (k : String) (b : β) :
    objLookup (upsertRow l k b) k = some b := by
  induction l with
  | nil => simp [upsertRow, objLookup]
  | cons p rest ih =>
    by_cases h : p.1 = k
    · simp [upsertRow, h, objLookup]
    · simp [upsertRow, h, objLookup, ih]

theorem objLookup_upsertRow_ne (l : List (String × β)) (k k' : String) (b : β)
    (h : k' ≠ k) : objLookup (upsertRow l k b) k' = objLookup l k' := by
  have h' : ¬ (k = k') := fun hh => h hh.symm
  induction l with
  | nil => simp [upsertRow, objLookup, h']
  | cons p rest ih =>
    by_cases hp : p.1 = k
    · simp [upsertRow, hp, objLookup, h', ih]
    · simp [upsertRow, hp, objLookup, ih]

theorem mem_upsertRow (l : List (String × β)) (k : String) (b : β) (p : String × β) :
    p ∈ upsertRow l k b → p ∈ l ∨ p = (k, b) := by
  induction l with
  | nil => simp [upsertRow]
  | cons q rest ih =>
    by_cases hq : q.1 = k
    · simp only [upsertRow, if_pos hq, List.mem_cons]
      rintro (h | h)
      · exact Or.inr h
      · exact Or.inl (Or.inr h)
    · simp only [upsertRow, if_neg hq, List.mem_cons]
      rintro (h | h)
      · exact Or.inl (Or.inl h)
      · rcases ih h with h' | h'
        · exact Or.inl (Or.inr h')
        · exact Or.inr h'

theorem objLookup_deleteObjRow_self (l : List (String × β)) (k : String) :
    objLookup (deleteObjRow l k) k = none := by
  induction l with
  | nil => rfl
  | cons p rest ih =>
    by_cases h : p.1 = k
    · simpa [deleteObjRow, h] using ih
    · simpa [deleteObjRow, h, objLookup] using ih

theorem objLookup_deleteObjRow_ne (l : List (String × β)) (k k' : String) (h : k' ≠ k) :
    objLookup (deleteObjRow l k) k' = objLookup l k' := by
  induction l with
  | nil => rfl
  | cons p rest ih =>
    by_cases hp : p.1 = k
    · have h' : ¬ (k = k') := fun hh => h hh.symm
      simp [deleteObjRow, hp, objLookup, h', ih]
    · simp [deleteObjRow, hp, objLookup, ih]

theorem mem_deleteIdxRows (l : List (String × String × String)) (k : String)
    (r : String × String × String) :
    r ∈ deleteIdxRows l k ↔ r ∈ l ∧ r.2.2 ≠ k := by
  induction l with
  | nil => simp [deleteIdxRows]
  | cons r0 rest ih =>
    by_cases h : r0.2.2 = k
    · rw [deleteIdxRows, if_pos h, ih]
      constructor
      · rintro ⟨hm, hne⟩; exact ⟨List.mem_cons_of_mem _ hm, hne⟩
      · rintro ⟨hm, hne⟩
        rcases List.mem_cons.mp hm with h0 | h0
        · subst h0; exact absurd h hne
        · exact ⟨h0, hne⟩
    · rw [deleteIdxRows, if_neg h]
      constructor
      · intro hm
        rcases List.mem_cons.mp hm with h0 | h0
        · subst h0; exact ⟨List.mem_cons_self _ _, h⟩
        · exact ⟨List.mem_cons_of_mem _ (ih.mp h0).1, (ih.mp h0).2⟩
      · rintro ⟨hm, hne⟩
        rcases List.mem_cons.mp hm with h0 | h0
        · subst h0; exact List.mem_cons_self _ _
        · exact List.mem_cons_of_mem _ (ih.mpr ⟨h0, hne⟩)

theorem lookupIdxFn_eq_none
    (ix : List (String × (σ → Except String (List String)))) (n : String)
    (h : n ∉ ix.map Prod.fst) : lookupIdxFn ix n = none := by
  induction ix with
  | nil => rfl
  | cons e rest ih =>
    obtain ⟨n0, f0⟩ := e
    simp only [List.map_cons, List.mem_cons] at h
    push_neg at h
    rw [lookupIdxFn, if_neg (fun hh => h.1 hh.symm)]
    exact ih h.2

theorem indexRowsFor_key (ix : List (String × (σ → Except String (List String))))
    (o : σ) (k : String) (rows : List (String × String × String))
    (h : indexRowsFor ix o k = .ok rows) : ∀ r ∈ rows, r.2.2 = k := by
  induction ix generalizing rows with
  | nil =>
    rw [indexRowsFor] at h
    cases h
    intro r hr; cases hr
  | cons e rest ih =>
    obtain ⟨n0, f0⟩ := e
    rw [indexRowsFor] at h
    cases hf : f0 o with
    | error e0 => rw [hf] at h; cases h
    | ok vs =>
      rw [hf] at h
      cases hrec : indexRowsFor rest o k with
      | error e0 => rw [hrec] at h; cases h
      | ok rows' =>
        rw [hrec] at h
        cases h
        intro r hr
        rcases List.mem_append.mp hr with hm | hm
        · rcases List.mem_map.mp hm with ⟨v, _, hv⟩
          rw [← hv]
        · exact ih rows' hrec r hm

theorem mem_indexRowsFor (ix : List (String × (σ → Except String (List String))))
    (o : σ) (k : String) (rows : List (String × String × String))
    (hnodup : (ix.map Prod.fst).Nodup)
    (h : indexRowsFor ix o k = .ok rows) (n v k' : String) :
    ((n, v, k') ∈ rows ↔
      k' = k ∧ ∃ f, lookupIdxFn ix n = some f ∧ ∃ vs, f o = .ok vs ∧ v ∈ vs) := by
  induction ix generalizing rows with
  | nil =>
    rw [indexRowsFor] at h
    cases h
    simp [lookupIdxFn]
  | cons e rest ih =>
    obtain ⟨n0, f0⟩ := e
    rw [indexRowsFor] at h
    cases hf : f0 o with
    | error e0 => rw [hf] at h; cases h
    | ok vs0 =>
      rw [hf] at h
      cases hrec : indexRowsFor rest o k with
      | error e0 => rw [hrec] at h; cases h
      | ok rows' =>
        rw [hrec] at h
        cases h
        have hnd := List.nodup_cons.mp hnodup
        by_cases hn : n0 = n
        · subst hn
          rw [List.mem_append]
          constructor
          · rintro (hm | hm)
            · rcases List.mem_map.mp hm with ⟨w, hw, hv⟩
              simp only [Prod.mk.injEq] at hv
              obtain ⟨-, h2, h3⟩ := hv
              refine ⟨h3.symm, f0, ?_, vs0, hf, ?_⟩
              · rw [lookupIdxFn, if_pos rfl]
              · rw [← h2]; exact hw
            · have := (ih rows' hnd.2 hrec).mp hm
              rcases this with ⟨hk, f, hlook, _⟩
              have hnone : lookupIdxFn rest n0 = none :=
                lookupIdxFn_eq_none rest n0 hnd.1
              rw [hnone] at hlook; cases hlook
          · rintro ⟨hk, f, hlook, vs, hfo, hv⟩
            rw [lookupIdxFn, if_pos rfl] at hlook
            cases hlook
            rw [hf] at hfo
            cases hfo
            subst hk
            exact Or.inl (List.mem_map.mpr ⟨v, hv, rfl⟩)
        · rw [List.mem_append]
          constructor
          · rintro (hm | hm)
            · rcases List.mem_map.mp hm with ⟨w, _, hv⟩
              simp only [Prod.mk.injEq] at hv
              exact absurd hv.1 hn
            · have := (ih rows' hnd.2 hrec).mp hm
              rcases this with ⟨hk, f, hlook, vs, hfo, hv⟩
              exact ⟨hk, f, by rw [lookupIdxFn, if_neg hn]; exact hlook, vs, hfo, hv⟩
          · rintro ⟨hk, f, hlook, vs, hfo, hv⟩
            rw [lookupIdxFn, if_neg hn] at hlook
            exact Or.inr ((ih rows' hnd.2 hrec).mpr ⟨hk, f, hlook, vs, hfo, hv⟩)

/-! ## Lemmas on the thread-safe store write operations -/

theorem SafeAdd_ok (cfg : Config σ β) (db : DB β) (k : String) (o : σ) (db' : DB β)
    (h : TSS.SafeAdd cfg db k o = .ok db') :
    ∃ b rows, cfg.enc o = .ok b ∧ indexRowsFor cfg.indexers o k = .ok rows ∧
      db' = { objects := upsertRow db.objects k b
              indices := deleteIdxRows db.indices k ++ rows } := by
  rw [TSS.SafeAdd] at h
  cases he : cfg.enc o with
  | error e => rw [he] at h; cases h
  | ok b =>
    rw [he] at h
    cases hr : indexRowsFor cfg.indexers o k with
    | error e => rw [hr] at h; cases h
    | ok rows =>
      rw [hr] at h
      cases h
      exact ⟨b, rows, rfl, rfl, rfl⟩

theorem goodDB_safeAdd (cfg : Config σ β) (db db' : DB β) (k : String) (o : σ)
    (hcodec : ∀ x b, cfg.enc x = .ok b → cfg.dec b = .ok x)
    (hnodup : (cfg.indexers.map Prod.fst).Nodup)
    (h : TSS.SafeAdd cfg db k o = .ok db')
    (hg : GoodDB cfg db) : GoodDB cfg db' := by
  obtain ⟨b, rows, he, hr, hdb⟩ := SafeAdd_ok cfg db k o db' h
  have hobj : db'.objects = upsertRow db.objects k b := by rw [hdb]
  have hidx : db'.indices = deleteIdxRows db.indices k ++ rows := by rw [hdb]
  have hlatk : latestObj cfg db' k = some o := by
    rw [latestObj, hobj, objLookup_upsertRow_self]
    show (cfg.dec b).toOption = some o
    rw [hcodec o b he]
    rfl
  have hlatne : ∀ k2, k2 ≠ k → latestObj cfg db' k2 = latestObj cfg db k2 := by
    intro k2 hk2
    rw [latestObj, latestObj, hobj, objLookup_upsertRow_ne _ _ _ _ hk2]
  intro n v k'
  rw [hidx, List.mem_append, mem_deleteIdxRows]
  by_cases hk : k' = k
  · subst hk
    constructor
    · rintro (⟨_, hne⟩ | hm)
      · exact absurd rfl hne
      · rcases (mem_indexRowsFor _ o k' rows hnodup hr n v k').mp hm with
          ⟨_, f, hlook, vs, hfo, hv⟩
        exact ⟨o, hlatk, f, hlook, vs, hfo, hv⟩
    · rintro ⟨o', hlat', f, hlook, vs, hfo, hv⟩
      rw [hlatk] at hlat'
      cases hlat'
      exact Or.inr ((mem_indexRowsFor _ o k' rows hnodup hr n v k').mpr
        ⟨rfl, f, hlook, vs, hfo, hv⟩)
  · constructor
    · rintro (⟨hm, _⟩ | hm)
      · rcases (hg n v k').mp hm with ⟨o', hlat', rest⟩
        exact ⟨o', (hlatne k' hk).trans hlat', rest⟩
      · have := (mem_indexRowsFor _ o k rows hnodup hr n v k').mp hm
        exact absurd this.1 hk
    · rintro ⟨o', hlat', rest⟩
      rw [hlatne k' hk] at hlat'
      exact Or.inl ⟨(hg n v k').mpr ⟨o', hlat', rest⟩, hk⟩

theorem goodDB_safeDelete (cfg : Config σ β) (db : DB β) (k : String)
    (hg : GoodDB cfg db) : GoodDB cfg (TSS.SafeDelete db k) := by
  rw [TSS.SafeDelete]
  by_cases hs : (objLookup db.objects k).isSome
  · rw [if_pos hs]
    intro n v k'
    rw [mem_deleteIdxRows]
    by_cases hk : k' = k
    · subst hk
      constructor
      · rintro ⟨_, hne⟩; exact absurd rfl hne
      · rintro ⟨o', hlat', _⟩
        rw [latestObj, objLookup_deleteObjRow_self] at hlat'
        cases hlat'
    · have hlat : latestObj cfg
          { objects := deleteObjRow db.objects k,
            indices := deleteIdxRows db.indices k } k' = latestObj cfg db k' := by
        rw [latestObj, latestObj, objLookup_deleteObjRow_ne _ _ _ hk]
      constructor
      · rintro ⟨hm, _⟩
        rcases (hg n v k').mp hm with ⟨o', hlat', rest⟩
        exact ⟨o', hlat.trans hlat', rest⟩
      · rintro ⟨o', hlat', rest⟩
        rw [hlat] at hlat'
        exact ⟨(hg n v k').mpr ⟨o', hlat', rest⟩, hk⟩
  · rw [if_neg hs]
    exact hg

theorem mem_cascadeAll (objects : List (String × β))
    (l : List (String × String × String)) (r : String × String × String)
    (h : r ∈ TSS.cascadeAll objects l) :
    r ∈ l ∧ (objLookup objects r.2.2).isSome = false := by
  induction l with
  | nil => cases h
  | cons r0 rest ih =>
    rw [TSS.cascadeAll] at h
    by_cases h0 : (objLookup objects r0.2.2).isSome
    · rw [if_pos h0] at h
      exact ⟨List.mem_cons_of_mem _ (ih h).1, (ih h).2⟩
    · rw [if_neg h0] at h
      rcases List.mem_cons.mp h with h1 | h1
      · subst h1
        exact ⟨List.mem_cons_self _ _, Bool.not_eq_true _ ▸ h0⟩
      · exact ⟨List.mem_cons_of_mem _ (ih h1).1, (ih h1).2⟩

theorem goodDB_deleteAll (cfg : Config σ β) (db : DB β)
    (hg : GoodDB cfg db) : GoodDB cfg (TSS.DeleteAll db) := by
  intro n v k'
  constructor
  · intro hm
    obtain ⟨hmem, hnone⟩ := mem_cascadeAll db.objects db.indices _ hm
    rcases (hg n v k').mp hmem with ⟨o', hlat', _⟩
    rw [latestObj] at hlat'
    cases hl : objLookup db.objects k' with
    | none => rw [hl] at hlat'; cases hlat'
    | some b0 =>
      rw [hl] at hnone
      cases hnone
  · rintro ⟨o', hlat', _⟩
    rw [latestObj] at hlat'
    have hnone : objLookup (TSS.DeleteAll db).objects k' = none := rfl
    rw [hnone] at hlat'
    cases hlat'

theorem goodDB_empty (cfg : Config σ β) : GoodDB cfg (emptyDB : DB β) := by
  intro n v k
  constructor
  · intro h; cases h
  · rintro ⟨o, hlat, -⟩
    exact Option.noConfusion hlat

theorem goodDB_addLoop (cfg : Config σ β) (db : DB β) (entries : List (String × σ))
    (hcodec : ∀ x b, cfg.enc x = .ok b → cfg.dec b = .ok x)
    (hnodup : (cfg.indexers.map Prod.fst).Nodup)
    (hg : GoodDB cfg db) : GoodDB cfg (TSS.AddLoop cfg db entries).1 := by
  induction entries generalizing db with
  | nil => exact hg
  | cons e rest ih =>
    obtain ⟨k, o⟩ := e
    rw [TSS.AddLoop]
    cases h : TSS.SafeAdd cfg db k o with
    | error e0 => exact hg
    | ok db2 => exact ih db2 (goodDB_safeAdd cfg db db2 k o hcodec hnodup h hg)

theorem goodDB_applyWOp (cfg : Config σ β) (db : DB β) (op : WOp σ)
    (hcodec : ∀ x b, cfg.enc x = .ok b → cfg.dec b = .ok x)
    (hnodup : (cfg.indexers.map Prod.fst).Nodup)
    (hg : GoodDB cfg db) : GoodDB cfg (applyWOp cfg db op) := by
  cases op with
  | add k o =>
    rw [applyWOp]
    cases h : TSS.SafeAdd cfg db k o with
    | error e0 => exact hg
    | ok db2 => exact goodDB_safeAdd cfg db db2 k o hcodec hnodup h hg
  | update k o =>
    rw [applyWOp]
    cases h : TSS.SafeUpdate cfg db k o with
    | error e0 => exact hg
    | ok db2 => exact goodDB_safeAdd cfg db db2 k o hcodec hnodup h hg
  | del k => exact goodDB_safeDelete cfg db k hg
  | replace es =>
    rw [applyWOp, TSS.SafeReplace]
    exact goodDB_addLoop cfg _ es hcodec hnodup (goodDB_deleteAll cfg db hg)

theorem goodDB_applyWOps (cfg : Config σ β) (db : DB β) (ops : List (WOp σ))
    (hcodec : ∀ x b, cfg.enc x = .ok b → cfg.dec b = .ok x)
    (hnodup : (cfg.indexers.map Prod.fst).Nodup)
    (hg : GoodDB cfg db) : GoodDB cfg (applyWOps cfg db ops) := by
  induction ops generalizing db with
  | nil => exact hg
  | cons op rest ih =>
    exact ih (applyWOp cfg db op) (goodDB_applyWOp cfg db op hcodec hnodup hg)

theorem objLookup_addLoop_absent (cfg : Config σ β) (db : DB β)
    (entries : List (String × σ)) (k : String)
    (hk : k ∉ entries.map Prod.fst)
    (h0 : objLookup db.objects k = none) :
    objLookup (TSS.AddLoop cfg db entries).1.objects k = none := by
  induction entries generalizing db with
  | nil => exact h0
  | cons e rest ih =>
    obtain ⟨k0, o0⟩ := e
    simp only [List.map_cons, List.mem_cons] at hk
    push_neg at hk
    rw [TSS.AddLoop]
    cases h : TSS.SafeAdd cfg db k0 o0 with
    | error e0 => exact h0
    | ok db2 =>
      obtain ⟨b, rows, he, hr, hdb⟩ := SafeAdd_ok cfg db k0 o0 db2 h
      refine ih db2 hk.2 ?_
      rw [hdb]
      exact (objLookup_upsertRow_ne db.objects k0 k b hk.1).trans h0

theorem SafeGet_eq_none (cfg : Config σ β) (db : DB β) (k : String)
    (h : objLookup db.objects k = none) : TSS.SafeGet cfg db k = .ok none := by
  rw [TSS.SafeGet, h]

theorem keysFromIndex_nil_of_absent (indices : List (String × String × String))
    (name value : String) (h : ∀ r ∈ indices, r.1 ≠ name) :
    TSS.keysFromIndex indices name value = [] := by
  rw [TSS.keysFromIndex]
  have : indices.filter (fun r => decide (r.1 = name ∧ r.2.1 = value)) = [] := by
    rw [List.filter_eq_nil_iff]
    intro r hr
    simp only [decide_eq_true_eq, not_and]
    intro h1
    exact absurd h1 (h r hr)
  rw [this]
  rfl

/-! ## Claims about the thread-safe store -/

/-- C1, counterexample: on the older sqlIndexer generation the claim fails.
After Add of the object (a, b) — indexed under by_val value b — the cited
sqlIndexer.Update to (a, c) rewrites only the blob: the latest object
stored under key a now has by_val value c, yet the indices table still
holds the stale row (by_val, b, 1) and no (by_val, c, 1) row, so the index
rows are not exactly the fan-out of the latest object. -/
theorem c1_counterexample :
    OldIx.Add oCfg emptyOldDB ("a", "b") = .ok oDB1 ∧
    OldIx.Update oCfg oDB1 ("a", "c") = .ok oDB2 ∧
    oDB2.objects = [(1, "a", ("a", "c"))] ∧
    (∃ f, lookupIdxFn oCfg.indexers "by_val" = some f ∧ f ("a", "c") = .ok ["c"]) ∧
    oDB2.indices = [("by_val", "b", 1)] ∧
    ("by_val", "c", 1) ∉ oDB2.indices :=
  ⟨rfl, rfl, rfl, ⟨_, rfl, rfl⟩, rfl, by decide⟩

/-- C1, amended to the thread-safe store generation (whose Update delegates
to Add and reconciles index rows): for every write history applied to the
fresh store — under the assumptions that the codec round-trips and that
registered indexer names are distinct, both true of the Go store — a row
(n, v, k) is in the indices table exactly when n is a registered indexer
and v is among its values on the latest object stored under k; in
particular no row carries a key with no stored object. -/
theorem c1_threadsafe_index_consistency (cfg : Config σ β) (ops : List (WOp σ))
    (n v k : String)
    (hcodec : ∀ x b, cfg.enc x = .ok b → cfg.dec b = .ok x)
    (hnodup : (cfg.indexers.map Prod.fst).Nodup) :
    ((n, v, k) ∈ (applyWOps cfg emptyDB ops).indices ↔
      ClaimRowSpec cfg (applyWOps cfg emptyDB ops) n v k) :=
  goodDB_applyWOps cfg emptyDB ops hcodec hnodup (goodDB_empty cfg) n v k

/-- C1, witness: the amended theorem applied to a concrete four-write
history over string objects with the identity codec. -/
theorem c1_witness :
    (("by_val", "u", "k2") ∈ (applyWOps wCfg emptyDB wOps).indices ↔
      ClaimRowSpec wCfg (applyWOps wCfg emptyDB wOps) "by_val" "u" "k2") :=
  c1_threadsafe_index_consistency wCfg wOps "by_val" "u" "k2"
    (fun x b h => by injection h with h; subst h; rfl) (by decide)

/-- C3, counterexample: SafeReplace of one entry whose encoding fails, on a
store holding one object, surfaces the error but leaves the store emptied —
the committed delete-all is not rolled back, so the state differs from the
pre-Replace state, contradicting the single-transaction rollback claim. -/
theorem c3_counterexample :
    (TSS.SafeReplace failCfg failDB [("k2", false)]).2.isSome = true ∧
    (TSS.SafeReplace failCfg failDB [("k2", false)]).1 ≠ failDB := by
  decide

/-- C3, amended: SafeReplace is not one transaction — it commits the
delete-all first and then runs each upsert as its own transaction, so
whether or not an error occurs, every key not among the entries is absent
from the objects table afterwards (the prior contents are discarded even
when SafeReplace returns an error). -/
theorem c3_replace_discards_prior_contents (cfg : Config σ β) (db : DB β)
    (entries : List (String × σ)) (k : String)
    (hk : k ∉ entries.map Prod.fst) :
    objLookup (TSS.SafeReplace cfg db entries).1.objects k = none := by
  rw [TSS.SafeReplace]
  exact objLookup_addLoop_absent cfg _ entries k hk rfl

/-- C3, witness: the amended theorem at the counterexample input — the
pre-existing key k1 is gone although the Replace failed. -/
theorem c3_witness :
    objLookup (TSS.SafeReplace failCfg failDB [("k2", false)]).1.objects "k1" = none :=
  c3_replace_discards_prior_contents failCfg failDB [("k2", false)] "k1" (by decide)

/-- C4: when the registered index function returns exactly one value v,
Index returns the same result as ByIndex — on the thread-safe store by
direct delegation, and on the older sqlIndexer generation because its
fall-through IN (v) query selects the same rows as ByIndex's equality
query. -/
theorem c4_single_value_delegation (cfg : Config σ β) (db : DB β) (name : String)
    (o : σ) (f : σ → Except String (List String)) (v : String)
    (ocfg : OldConfig σ β) (odb : OldDB β) (g : σ → Except String (List String))
    (hf : lookupIdxFn cfg.indexers name = some f) (hfv : f o = .ok [v])
    (hg : lookupIdxFn ocfg.indexers name = some g) (hgv : g o = .ok [v]) :
    TSS.Index cfg db name o = TSS.ByIndex cfg db name v ∧
    OldIx.Index ocfg odb name o = OldIx.ByIndex ocfg odb name v := by
  constructor
  · simp only [TSS.Index, hf, hfv]
  · simp only [OldIx.Index, hg, hgv, OldIx.ByIndex]
    have hfun : (fun r : Nat × String × β => odb.indices.any (fun i =>
        decide (i.1 = name ∧ i.2.1 ∈ [v] ∧ i.2.2 = r.1))) =
        (fun r : Nat × String × β => odb.indices.any (fun i =>
        decide (i.1 = name ∧ i.2.1 = v ∧ i.2.2 = r.1))) := by
      funext r
      congr 1
      funext i
      exact decide_eq_decide.mpr (by simp)
    rw [hfun]

/-- C4, witness: the delegation theorem at a concrete single-value indexer
on both store generations. -/
theorem c4_witness :
    TSS.Index wCfg wDB "by_val" "x" = TSS.ByIndex wCfg wDB "by_val" "x" ∧
    OldIx.Index oSCfg oSDB "by_val" "x" = OldIx.ByIndex oSCfg oSDB "by_val" "x" :=
  c4_single_value_delegation wCfg wDB "by_val" "x" (fun o => .ok [o]) "x" oSCfg oSDB
    (fun o => .ok [o]) rfl rfl rfl rfl

/-- C5, counterexample: ByIndex on an unregistered index name returns an
ordinary empty result with no error — not the UnknownIndex input error the
claim requires. -/
theorem c5_counterexample :
    lookupIdxFn wCfg.indexers "nope" = none ∧
    TSS.ByIndex wCfg wDB "nope" "x" = .ok [] :=
  ⟨rfl, rfl⟩

/-- C5, amended: ByIndex performs no registration check, so for an
unregistered name (which in any reachable state has no index rows) it
returns ok with the empty list; the UnknownIndex rejection the spec
describes is performed by Index and IndexKeys but not by ByIndex. -/
theorem c5_byindex_skips_validation (cfg : Config σ β) (db : DB β)
    (name value : String)
    (hreg : lookupIdxFn cfg.indexers name = none)
    (hrows : ∀ r ∈ db.indices, r.1 ≠ name) :
    TSS.ByIndex cfg db name value = .ok [] ∧
    (∀ o : σ, ∃ e, TSS.Index cfg db name o = .error e) ∧
    (∃ e, TSS.IndexKeys cfg db name value = .error e) := by
  refine ⟨?_, ?_, ?_⟩
  · rw [TSS.ByIndex, keysFromIndex_nil_of_absent db.indices name value hrows]
    have hflt : db.objects.filter (fun p => decide (p.1 ∈ ([] : List String))) = [] := by
      simp
    rw [hflt]
    rfl
  · intro o
    rw [TSS.Index, hreg]
    exact ⟨_, rfl⟩
  · rw [TSS.IndexKeys, hreg]
    exact ⟨_, rfl⟩

/-- C5, witness: the amended theorem at the unregistered name nope on a
small concrete store. -/
theorem c5_witness :
    TSS.ByIndex wCfg wDB "nope" "x" = .ok [] ∧
    (∀ o : String, ∃ e, TSS.Index wCfg wDB "nope" o = .error e) ∧
    (∃ e, TSS.IndexKeys wCfg wDB "nope" "x" = .error e) :=
  c5_byindex_skips_validation wCfg wDB "nope" "x" rfl (by decide)

/-- C6: after SafeDelete of a key, on any state satisfying the foreign-key
invariant (which the schema enforces), no index row references the key —
the ON DELETE CASCADE removed them — and SafeGet returns exists = false
with no error. -/
theorem c6_delete_cascade (cfg : Config σ β) (db : DB β) (k : String)
    (hfk : fkOk db = true) :
    (∀ r ∈ (TSS.SafeDelete db k).indices, r.2.2 ≠ k) ∧
    TSS.SafeGet cfg (TSS.SafeDelete db k) k = .ok none := by
  rw [TSS.SafeDelete]
  by_cases hs : (objLookup db.objects k).isSome
  · rw [if_pos hs]
    constructor
    · intro r hr
      exact ((mem_deleteIdxRows db.indices k r).mp hr).2
    · exact SafeGet_eq_none cfg _ k (objLookup_deleteObjRow_self db.objects k)
  · rw [if_neg hs]
    have hnone : objLookup db.objects k = none := Option.not_isSome_iff_eq_none.mp hs
    constructor
    · intro r hr heq
      have hall := List.all_eq_true.mp hfk r hr
      rw [heq, hnone] at hall
      simp at hall
    · exact SafeGet_eq_none cfg db k hnone

/-- C6, witness: the cascade theorem on a concrete one-object store. -/
theorem c6_witness :
    (∀ r ∈ (TSS.SafeDelete wDB "k").indices, r.2.2 ≠ "k") ∧
    TSS.SafeGet wCfg (TSS.SafeDelete wDB "k") "k" = .ok none :=
  c6_delete_cascade wCfg wDB "k" (by decide)

/-- C10: SafeUpdate is literally SafeAdd, and the shared statement upserts:
whenever the encoder and the index functions succeed on the object, the
write succeeds — whether or not the key is already present — the stored
blob under the key becomes the new encoding, and every other key's blob is
untouched. -/
theorem c10_add_update_upsert (cfg : Config σ β) (db : DB β) (k : String) (o : σ)
    (b : β) (rows : List (String × String × String))
    (henc : cfg.enc o = .ok b)
    (hrows : indexRowsFor cfg.indexers o k = .ok rows) :
    TSS.SafeUpdate cfg db k o = TSS.SafeAdd cfg db k o ∧
    ∃ db', TSS.SafeAdd cfg db k o = .ok db' ∧
      objLookup db'.objects k = some b ∧
      ∀ k', k' ≠ k → objLookup db'.objects k' = objLookup db.objects k' := by
  refine ⟨rfl, { objects := upsertRow db.objects k b
                 indices := deleteIdxRows db.indices k ++ rows }, ?_, ?_, ?_⟩
  · rw [TSS.SafeAdd, henc, hrows]
  · exact objLookup_upsertRow_self db.objects k b
  · exact fun k' hk' => objLookup_upsertRow_ne db.objects k k' b hk'

/-- C10, witness: the upsert theorem overwriting the present key k of the
concrete store. -/
theorem c10_witness :
    TSS.SafeUpdate wCfg wDB "k" "y" = TSS.SafeAdd wCfg wDB "k" "y" ∧
    ∃ db', TSS.SafeAdd wCfg wDB "k" "y" = .ok db' ∧
      objLookup db'.objects "k" = some "y" ∧
      ∀ k', k' ≠ "k" → objLookup db'.objects k' = objLookup wDB.objects k' :=
  c10_add_update_upsert wCfg wDB "k" "y" "y" [("by_val", "y", "k")] rfl rfl

/-! ## Lemmas on the versioned history table -/

theorem maxVerOf_eq_none_iff (hist : List (HRow β)) (k : String) :
    maxVerOf hist k = none ↔ ∀ r ∈ hist, r.key ≠ k := by
  induction hist with
  | nil => simp [maxVerOf]
  | cons r0 rest ih =>
    rw [maxVerOf]
    by_cases h : r0.key = k
    · rw [if_pos h]
      constructor
      · intro hv; exact Option.noConfusion hv
      · intro hall
        exact absurd h (hall r0 (List.mem_cons_self _ _))
    · rw [if_neg h]
      rw [ih]
      constructor
      · intro hall r hr
        rcases List.mem_cons.mp hr with h1 | h1
        · subst h1; exact h
        · exact hall r h1
      · intro hall r hr
        exact hall r (List.mem_cons_of_mem _ hr)

theorem maxVerOf_attained (hist : List (HRow β)) (k : String) (v : Int)
    (h : maxVerOf hist k = some v) : ∃ r ∈ hist, r.key = k ∧ r.version = v := by
  induction hist generalizing v with
  | nil => cases h
  | cons r0 rest ih =>
    rw [maxVerOf] at h
    by_cases hk : r0.key = k
    · rw [if_pos hk] at h
      cases hm : maxVerOf rest k with
      | none =>
        rw [hm] at h
        have h' : r0.version = v := by injection h
        exact ⟨r0, List.mem_cons_self _ _, hk, h'⟩
      | some mv =>
        rw [hm] at h
        have h' : max r0.version mv = v := by injection h
        rcases le_total mv r0.version with hle | hle
        · refine ⟨r0, List.mem_cons_self _ _, hk, ?_⟩
          rw [← h', max_eq_left hle]
        · obtain ⟨r, hr, hrk, hrv⟩ := ih mv hm
          refine ⟨r, List.mem_cons_of_mem _ hr, hrk, ?_⟩
          rw [hrv, ← h', max_eq_right hle]
    · rw [if_neg hk] at h
      obtain ⟨r, hr, hrk, hrv⟩ := ih v h
      exact ⟨r, List.mem_cons_of_mem _ hr, hrk, hrv⟩

theorem maxVerOf_bound (hist : List (HRow β)) (k : String) (v : Int)
    (h : maxVerOf hist k = some v) : ∀ r ∈ hist, r.key = k → r.version ≤ v := by
  induction hist generalizing v with
  | nil => intro r hr; cases hr
  | cons r0 rest ih =>
    rw [maxVerOf] at h
    by_cases hk : r0.key = k
    · rw [if_pos hk] at h
      cases hm : maxVerOf rest k with
      | none =>
        rw [hm] at h
        have h' : r0.version = v := by injection h
        intro r hr hrk
        rcases List.mem_cons.mp hr with h1 | h1
        · subst h1; exact le_of_eq h'
        · exact absurd hrk ((maxVerOf_eq_none_iff rest k).mp hm r h1)
      | some mv =>
        rw [hm] at h
        have h' : max r0.version mv = v := by injection h
        intro r hr hrk
        rcases List.mem_cons.mp hr with h1 | h1
        · subst h1; rw [← h']; exact le_max_left _ _
        · exact le_trans (ih mv hm r h1 hrk) (by rw [← h']; exact le_max_right _ _)
    · rw [if_neg hk] at h
      intro r hr hrk
      rcases List.mem_cons.mp hr with h1 | h1
      · subst h1; exact absurd hrk hk
      · exact ih v h r h1 hrk

theorem maxVerOf_eq_of (hist : List (HRow β)) (k : String) (v : Int)
    (hatt : ∃ r ∈ hist, r.key = k ∧ r.version = v)
    (hbnd : ∀ r ∈ hist, r.key = k → r.version ≤ v) :
    maxVerOf hist k = some v := by
  induction hist with
  | nil => obtain ⟨r, hr, -, -⟩ := hatt; cases hr
  | cons r0 rest ih =>
    rw [maxVerOf]
    by_cases hk : r0.key = k
    · rw [if_pos hk]
      cases hm : maxVerOf rest k with
      | none =>
        obtain ⟨r, hr, hrk, hrv⟩ := hatt
        rcases List.mem_cons.mp hr with h1 | h1
        · subst h1; exact congrArg some hrv
        · exact absurd hrk ((maxVerOf_eq_none_iff rest k).mp hm r h1)
      | some mv =>
        have hr0 : r0.version ≤ v := hbnd r0 (List.mem_cons_self _ _) hk
        obtain ⟨rb, hrb, hrbk, hrbv⟩ := maxVerOf_attained rest k mv hm
        have hmv : mv ≤ v := by
          rw [← hrbv]
          exact hbnd rb (List.mem_cons_of_mem _ hrb) hrbk
        have hge : v ≤ max r0.version mv := by
          obtain ⟨r, hr, hrk, hrv⟩ := hatt
          rcases List.mem_cons.mp hr with h1 | h1
          · subst h1; rw [← hrv]; exact le_max_left _ _
          · have hb := maxVerOf_bound rest k mv hm r h1 hrk
            rw [← hrv]
            exact le_trans hb (le_max_right _ _)
        exact congrArg some (le_antisymm (max_le hr0 hmv) hge)
    · rw [if_neg hk]
      apply ih
      · obtain ⟨r, hr, hrk, hrv⟩ := hatt
        rcases List.mem_cons.mp hr with h1 | h1
        · subst h1; exact absurd hrk hk
        · exact ⟨r, h1, hrk, hrv⟩
      · intro r hr hrk
        exact hbnd r (List.mem_cons_of_mem _ hr) hrk

theorem maxVerLE_eq_none_iff (hist : List (HRow β)) (k : String) (R : Int) :
    VIX.maxVerLE hist k R = none ↔ ∀ r ∈ hist, r.key = k → ¬ r.version ≤ R := by
  induction hist with
  | nil => simp [VIX.maxVerLE]
  | cons r0 rest ih =>
    rw [VIX.maxVerLE]
    by_cases h : r0.key = k ∧ r0.version ≤ R
    · rw [if_pos h]
      constructor
      · intro hv; exact Option.noConfusion hv
      · intro hall
        exact absurd h.2 (hall r0 (List.mem_cons_self _ _) h.1)
    · rw [if_neg h]
      rw [ih]
      constructor
      · intro hall r hr hrk
        rcases List.mem_cons.mp hr with h1 | h1
        · subst h1
          intro hle
          exact h ⟨hrk, hle⟩
        · exact hall r h1 hrk
      · intro hall r hr hrk
        exact hall r (List.mem_cons_of_mem _ hr) hrk

theorem maxVerLE_attained (hist : List (HRow β)) (k : String) (R : Int) (v : Int)
    (h : VIX.maxVerLE hist k R = some v) :
    ∃ r ∈ hist, r.key = k ∧ r.version = v ∧ r.version ≤ R := by
  induction hist generalizing v with
  | nil => cases h
  | cons r0 rest ih =>
    rw [VIX.maxVerLE] at h
    by_cases hk : r0.key = k ∧ r0.version ≤ R
    · rw [if_pos hk] at h
      cases hm : VIX.maxVerLE rest k R with
      | none =>
        rw [hm] at h
        have h' : r0.version = v := by injection h
        exact ⟨r0, List.mem_cons_self _ _, hk.1, h', hk.2⟩
      | some mv =>
        rw [hm] at h
        have h' : max r0.version mv = v := by injection h
        rcases le_total mv r0.version with hle | hle
        · refine ⟨r0, List.mem_cons_self _ _, hk.1, ?_, hk.2⟩
          rw [← h', max_eq_left hle]
        · obtain ⟨r, hr, hrk, hrv, hrle⟩ := ih mv hm
          refine ⟨r, List.mem_cons_of_mem _ hr, hrk, ?_, hrle⟩
          rw [hrv, ← h', max_eq_right hle]
    · rw [if_neg hk] at h
      obtain ⟨r, hr, hrk, hrv, hrle⟩ := ih v h
      exact ⟨r, List.mem_cons_of_mem _ hr, hrk, hrv, hrle⟩

theorem maxVerLE_bound (hist : List (HRow β)) (k : String) (R : Int) (v : Int)
    (h : VIX.maxVerLE hist k R = some v) :
    ∀ r ∈ hist, r.key = k → r.version ≤ R → r.version ≤ v := by
  induction hist generalizing v with
  | nil => intro r hr; cases hr
  | cons r0 rest ih =>
    rw [VIX.maxVerLE] at h
    by_cases hk : r0.key = k ∧ r0.version ≤ R
    · rw [if_pos hk] at h
      cases hm : VIX.maxVerLE rest k R with
      | none =>
        rw [hm] at h
        have h' : r0.version = v := by injection h
        intro r hr hrk hrle
        rcases List.mem_cons.mp hr with h1 | h1
        · subst h1; exact le_of_eq h'
        · exact absurd hrle ((maxVerLE_eq_none_iff rest k R).mp hm r h1 hrk)
      | some mv =>
        rw [hm] at h
        have h' : max r0.version mv = v := by injection h
        intro r hr hrk hrle
        rcases List.mem_cons.mp hr with h1 | h1
        · subst h1; rw [← h']; exact le_max_left _ _
        · exact le_trans (ih mv hm r h1 hrk hrle) (by rw [← h']; exact le_max_right _ _)
    · rw [if_neg hk] at h
      intro r hr hrk hrle
      rcases List.mem_cons.mp hr with h1 | h1
      · subst h1; exact absurd ⟨hrk, hrle⟩ hk
      · exact ih v h r h1 hrk hrle

theorem maxVerLE_eq_of (hist : List (HRow β)) (k : String) (R : Int) (v : Int)
    (hatt : ∃ r ∈ hist, r.key = k ∧ r.version = v ∧ r.version ≤ R)
    (hbnd : ∀ r ∈ hist, r.key = k → r.version ≤ R → r.version ≤ v) :
    VIX.maxVerLE hist k R = some v := by
  induction hist with
  | nil => obtain ⟨r, hr, -, -⟩ := hatt; cases hr
  | cons r0 rest ih =>
    rw [VIX.maxVerLE]
    by_cases hk : r0.key = k ∧ r0.version ≤ R
    · rw [if_pos hk]
      cases hm : VIX.maxVerLE rest k R with
      | none =>
        obtain ⟨r, hr, hrk, hrv, hrle⟩ := hatt
        rcases List.mem_cons.mp hr with h1 | h1
        · subst h1; exact congrArg some hrv
        · exact absurd hrle ((maxVerLE_eq_none_iff rest k R).mp hm r h1 hrk)
      | some mv =>
        have hr0 : r0.version ≤ v := hbnd r0 (List.mem_cons_self _ _) hk.1 hk.2
        obtain ⟨rb, hrb, hrbk, hrbv, hrble⟩ := maxVerLE_attained rest k R mv hm
        have hmv : mv ≤ v := by
          rw [← hrbv]
          exact hbnd rb (List.mem_cons_of_mem _ hrb) hrbk hrble
        have hge : v ≤ max r0.version mv := by
          obtain ⟨r, hr, hrk, hrv, hrle⟩ := hatt
          rcases List.mem_cons.mp hr with h1 | h1
          · subst h1; rw [← hrv]; exact le_max_left _ _
          · have hb := maxVerLE_bound rest k R mv hm r h1 hrk hrle
            rw [← hrv]
            exact le_trans hb (le_max_right _ _)
        exact congrArg some (le_antisymm (max_le hr0 hmv) hge)
    · rw [if_neg hk]
      apply ih
      · obtain ⟨r, hr, hrk, hrv, hrle⟩ := hatt
        rcases List.mem_cons.mp hr with h1 | h1
        · subst h1; exact absurd ⟨hrk, hrle⟩ hk
        · exact ⟨r, h1, hrk, hrv, hrle⟩
      · intro r hr hrk hrle
        exact hbnd r (List.mem_cons_of_mem _ hr) hrk hrle

theorem mem_upsertHist (hist : List (HRow β)) (k : String) (v : Int) (b : β)
    (r : HRow β) :
    r ∈ upsertHist hist k v b ↔
      ((r ∈ hist ∧ ¬ (r.key = k ∧ r.version = v)) ∨ r = ⟨k, v, false, b⟩) := by
  rw [upsertHist]
  by_cases hc : hist.any (fun r => decide (r.key = k ∧ r.version = v))
  · rw [if_pos hc, List.mem_map]
    constructor
    · rintro ⟨r0, hr0, hfr⟩
      by_cases hm : r0.key = k ∧ r0.version = v
      · right
        rw [← hfr, if_pos hm]
      · left
        rw [← hfr, if_neg hm]
        exact ⟨hr0, hm⟩
    · rintro (⟨hr, hnm⟩ | heq)
      · exact ⟨r, hr, by rw [if_neg hnm]⟩
      · rcases List.any_eq_true.mp hc with ⟨r0, hr0, hm⟩
        have hm' := of_decide_eq_true hm
        exact ⟨r0, hr0, by rw [if_pos hm', heq]⟩
  · rw [if_neg hc, List.mem_append, List.mem_singleton]
    constructor
    · rintro (hr | heq)
      · left
        refine ⟨hr, ?_⟩
        intro hm
        exact hc (List.any_eq_true.mpr ⟨r, hr, decide_eq_true hm⟩)
      · right; exact heq
    · rintro (⟨hr, -⟩ | heq)
      · left; exact hr
      · right; exact heq

theorem maxVerOf_map_preserve (hist : List (HRow β)) (f : HRow β → HRow β)
    (hf : ∀ r, (f r).key = r.key ∧ (f r).version = r.version) (k : String) :
    maxVerOf (hist.map f) k = maxVerOf hist k := by
  induction hist with
  | nil => rfl
  | cons r0 rest ih =>
    rw [List.map_cons, maxVerOf, maxVerOf, (hf r0).1, (hf r0).2, ih]

theorem maxVerOf_append_single_ne (hist : List (HRow β)) (r0 : HRow β) (k2 : String)
    (h : r0.key ≠ k2) : maxVerOf (hist ++ [r0]) k2 = maxVerOf hist k2 := by
  induction hist with
  | nil => simp [maxVerOf, h]
  | cons r1 rest ih =>
    rw [List.cons_append, maxVerOf, maxVerOf, ih]

theorem maxVerOf_upsertHist_ne (hist : List (HRow β)) (k k2 : String) (v : Int)
    (b : β) (h : k2 ≠ k) :
    maxVerOf (upsertHist hist k v b) k2 = maxVerOf hist k2 := by
  rw [upsertHist]
  by_cases hc : hist.any (fun r => decide (r.key = k ∧ r.version = v))
  · rw [if_pos hc]
    apply maxVerOf_map_preserve
    intro r
    by_cases hm : r.key = k ∧ r.version = v
    · rw [if_pos hm]
      constructor
      · show k = r.key
        rw [hm.1]
      · show v = r.version
        rw [hm.2]
    · rw [if_neg hm]; exact ⟨rfl, rfl⟩
  · rw [if_neg hc]
    exact maxVerOf_append_single_ne hist ⟨k, v, false, b⟩ k2 (fun hh => h (hh.symm))

theorem markDeleted_shape (hist : List (HRow β)) (k : String) (r : HRow β)
    (hr : r ∈ markDeleted hist k) :
    ∃ r0 ∈ hist, r.key = r0.key ∧ r.version = r0.version ∧ r.object = r0.object := by
  rw [markDeleted] at hr
  cases hm : maxVerOf hist k with
  | none =>
    rw [hm] at hr
    exact ⟨r, hr, rfl, rfl, rfl⟩
  | some mv =>
    rw [hm] at hr
    rcases List.mem_map.mp hr with ⟨r0, hr0, hfr⟩
    by_cases hmm : r0.key = k ∧ r0.version = mv
    · rw [if_pos hmm] at hfr
      rw [← hfr]
      exact ⟨r0, hr0, rfl, rfl, rfl⟩
    · rw [if_neg hmm] at hfr
      rw [← hfr]
      exact ⟨r0, hr0, rfl, rfl, rfl⟩

theorem mem_markDeleted_ne (hist : List (HRow β)) (k : String) (r : HRow β)
    (hne : r.key ≠ k) : r ∈ markDeleted hist k ↔ r ∈ hist := by
  rw [markDeleted]
  cases hm : maxVerOf hist k with
  | none => exact Iff.rfl
  | some mv =>
    rw [List.mem_map]
    constructor
    · rintro ⟨r0, hr0, hfr⟩
      by_cases hmm : r0.key = k ∧ r0.version = mv
      · rw [if_pos hmm] at hfr
        refine absurd ?_ hne
        rw [← hfr]
        exact hmm.1
      · rw [if_neg hmm] at hfr
        rw [← hfr]
        exact hr0
    · intro hr
      refine ⟨r, hr, ?_⟩
      rw [if_neg (fun hmm => hne hmm.1)]

theorem maxVerOf_markDeleted (hist : List (HRow β)) (k k2 : String) :
    maxVerOf (markDeleted hist k) k2 = maxVerOf hist k2 := by
  rw [markDeleted]
  cases hm : maxVerOf hist k with
  | none => rfl
  | some mv =>
    apply maxVerOf_map_preserve
    intro r
    by_cases hmm : r.key = k ∧ r.version = mv
    · rw [if_pos hmm]; exact ⟨rfl, rfl⟩
    · rw [if_neg hmm]; exact ⟨rfl, rfl⟩

theorem markDeleted_tombstones (hist : List (HRow β)) (k : String) (mv : Int)
    (hm : maxVerOf hist k = some mv) :
    ∀ r ∈ markDeleted hist k, r.key = k → r.version = mv → r.deleted = true := by
  rw [markDeleted, hm]
  intro r hr hrk hrv
  rcases List.mem_map.mp hr with ⟨r0, hr0, hfr⟩
  by_cases hmm : r0.key = k ∧ r0.version = mv
  · rw [← hfr, if_pos hmm]
  · rw [if_neg hmm] at hfr
    subst hfr
    exact absurd ⟨hrk, hrv⟩ hmm

theorem markDeleted_latestTombstoned (hist : List (HRow β)) (k : String)
    (hne : ∃ r ∈ hist, r.key = k) : LatestTombstoned (markDeleted hist k) k := by
  cases hm : maxVerOf hist k with
  | none =>
    obtain ⟨r, hr, hrk⟩ := hne
    exact absurd hrk ((maxVerOf_eq_none_iff hist k).mp hm r hr)
  | some mv =>
    refine ⟨mv, ?_, ?_⟩
    · rw [maxVerOf_markDeleted]; exact hm
    · exact markDeleted_tombstones hist k mv hm

theorem objLookup_safeDelete_self (db : DB β) (k : String) :
    objLookup (TSS.SafeDelete db k).objects k = none := by
  rw [TSS.SafeDelete]
  by_cases hs : (objLookup db.objects k).isSome
  · rw [if_pos hs]
    exact objLookup_deleteObjRow_self db.objects k
  · rw [if_neg hs]
    exact Option.not_isSome_iff_eq_none.mp hs

theorem objLookup_safeDelete_ne (db : DB β) (k k2 : String) (h : k2 ≠ k) :
    objLookup (TSS.SafeDelete db k).objects k2 = objLookup db.objects k2 := by
  rw [TSS.SafeDelete]
  by_cases hs : (objLookup db.objects k).isSome
  · rw [if_pos hs]
    exact objLookup_deleteObjRow_ne db.objects k k2 h
  · rw [if_neg hs]

theorem DeleteByKey_base (db : VDB β) (k : String) :
    (VIX.DeleteByKey db k).base = TSS.SafeDelete db.base k := rfl

theorem DeleteByKey_history (db : VDB β) (k : String) :
    (VIX.DeleteByKey db k).history = markDeleted db.history k := rfl

theorem Upsert_ok (cfg : Config σ β) (db : VDB β) (k : String) (o : σ) (v : Int)
    (db' : VDB β) (h : VIX.Upsert cfg db k o v = .ok db') :
    ∃ b, cfg.enc o = .ok b ∧
      db'.history = upsertHist db.history k v b ∧
      objLookup db'.base.objects k = some b ∧
      (∀ k2, k2 ≠ k → objLookup db'.base.objects k2 = objLookup db.base.objects k2) ∧
      (∀ p ∈ db'.base.objects, p ∈ db.base.objects ∨ p = (k, b)) := by
  rw [VIX.Upsert] at h
  cases hsa : TSS.SafeAdd cfg db.base k o with
  | error e => rw [hsa] at h; cases h
  | ok base' =>
    rw [hsa] at h
    obtain ⟨b, rows, he, hr, hdb⟩ := SafeAdd_ok cfg db.base k o base' hsa
    have hob : objLookup base'.objects k = some b := by
      rw [hdb]; exact objLookup_upsertRow_self _ _ _
    have h' : (match objLookup base'.objects k with
        | none => (Except.ok { base := base', history := db.history } : Except String (VDB β))
        | some b => Except.ok { base := base', history := upsertHist db.history k v b }) =
        Except.ok db' := h
    rw [hob] at h'
    injection h' with h2
    subst h2
    refine ⟨b, he, rfl, hob, ?_, ?_⟩
    · intro k2 hk2
      show objLookup base'.objects k2 = objLookup db.base.objects k2
      rw [hdb]
      exact objLookup_upsertRow_ne db.base.objects k k2 b hk2
    · intro p hp
      rw [hdb] at hp
      exact mem_upsertRow db.base.objects k b p hp

theorem vinv_upsert (cfg : Config σ β) (db : VDB β) (k : String) (o : σ) (v : Int)
    (db' : VDB β) (h : VIX.Upsert cfg db k o v = .ok db')
    (hbnd : ∀ r ∈ db.history, r.key = k → r.version ≤ v)
    (hinv : VInv db) : VInv db' := by
  obtain ⟨b, he, hhist, hob, hother, -⟩ := Upsert_ok cfg db k o v db' h
  intro k2 hk2
  rw [hhist]
  by_cases hk : k2 = k
  · subst hk
    refine ⟨v, ?_, ?_⟩
    · apply maxVerOf_eq_of
      · exact ⟨⟨k2, v, false, b⟩, (mem_upsertHist _ _ _ _ _).mpr (Or.inr rfl), rfl, rfl⟩
      · intro r hr hrk
        rcases (mem_upsertHist _ _ _ _ _).mp hr with ⟨hrh, -⟩ | heq
        · exact hbnd r hrh hrk
        · rw [heq]
    · intro r hr hrk hrv
      rcases (mem_upsertHist _ _ _ _ _).mp hr with ⟨hrh, hnm⟩ | heq
      · exact absurd ⟨hrk, hrv⟩ hnm
      · rw [heq]
  · rw [hother k2 hk] at hk2
    obtain ⟨mv, hmv, hlive⟩ := hinv k2 hk2
    refine ⟨mv, ?_, ?_⟩
    · rw [maxVerOf_upsertHist_ne db.history k k2 v b hk]
      exact hmv
    · intro r hr hrk hrv
      rcases (mem_upsertHist _ _ _ _ _).mp hr with ⟨hrh, -⟩ | heq
      · exact hlive r hrh hrk hrv
      · subst heq
        exact absurd hrk.symm hk

theorem vinv_delete (db : VDB β) (k : String) (hinv : VInv db) :
    VInv (VIX.DeleteByKey db k) := by
  intro k2 hk2
  rw [DeleteByKey_base] at hk2
  rw [DeleteByKey_history]
  by_cases hk : k2 = k
  · subst hk
    rw [objLookup_safeDelete_self] at hk2
    exact Bool.noConfusion hk2
  · rw [objLookup_safeDelete_ne db.base k k2 hk] at hk2
    obtain ⟨mv, hmv, hlive⟩ := hinv k2 hk2
    refine ⟨mv, ?_, ?_⟩
    · rw [maxVerOf_markDeleted]; exact hmv
    · intro r hr hrk hrv
      have hrne : r.key ≠ k := by rw [hrk]; exact hk
      exact hlive r ((mem_markDeleted_ne db.history k r hrne).mp hr) hrk hrv

theorem vinv_applyVOps (cfg : Config σ β) (db : VDB β) (ops : List (VOp σ))
    (hmono : monoUpserts (upsertsOf ops) = true)
    (hinv : VInv db) (hb : HistBound db.history (upsertsOf ops)) :
    VInv (applyVOps cfg db ops) := by
  induction ops generalizing db with
  | nil => exact hinv
  | cons op rest ih =>
    cases op with
    | del k =>
      rw [applyVOps]
      rw [upsertsOf] at hmono hb
      refine ih _ hmono (vinv_delete db k hinv) ?_
      intro r hr p hp hpk
      obtain ⟨r0, hr0, hk0, hv0, -⟩ := markDeleted_shape db.history k r hr
      rw [hv0]
      exact hb r0 hr0 p hp (by rw [hpk, hk0])
    | upsert k o v =>
      rw [applyVOps]
      rw [upsertsOf] at hmono hb
      rw [monoUpserts, Bool.and_eq_true] at hmono
      obtain ⟨hall, hrest⟩ := hmono
      cases hop : VIX.Upsert cfg db k o v with
      | error e =>
        have happ : applyVOp cfg db (VOp.upsert k o v) = db := by
          rw [applyVOp, hop]
        rw [happ]
        refine ih _ hrest hinv ?_
        intro r hr p hp hpk
        exact hb r hr p (List.mem_cons_of_mem _ hp) hpk
      | ok db2 =>
        have happ : applyVOp cfg db (VOp.upsert k o v) = db2 := by
          rw [applyVOp, hop]
        rw [happ]
        refine ih _ hrest ?_ ?_
        · refine vinv_upsert cfg db k o v db2 hop ?_ hinv
          intro r hr hrk
          exact hb r hr (k, v) (List.mem_cons_self _ _) hrk.symm
        · obtain ⟨b, he, hhist, -, -, -⟩ := Upsert_ok cfg db k o v db2 hop
          rw [hhist]
          intro r hr p hp hpk
          rcases (mem_upsertHist _ _ _ _ _).mp hr with ⟨hrh, -⟩ | heq
          · exact hb r hrh p (List.mem_cons_of_mem _ hp) hpk
          · subst heq
            have hdec := List.all_eq_true.mp hall p hp
            exact of_decide_eq_true hdec hpk

/-! ## Claims about the versioned store -/

/-- C7: for every monotone-version history of upserts and deletes (the
spec's stated operating assumption for caller-supplied versions) applied to
the fresh versioned store, every key holding a current object record has a
live (deleted = 0) maximum-version history row; and immediately after
DeleteByKey of any key that has history rows, the key's maximum-version
history row is a tombstone (deleted = 1). -/
theorem c7_tombstone_invariant (cfg : Config σ β) (ops : List (VOp σ)) (k : String)
    (hmono : monoUpserts (upsertsOf ops) = true) :
    ((objLookup (applyVOps cfg emptyVDB ops).base.objects k).isSome →
      LatestLive (applyVOps cfg emptyVDB ops).history k) ∧
    ((∃ r ∈ (applyVOps cfg emptyVDB ops).history, r.key = k) →
      LatestTombstoned (VIX.DeleteByKey (applyVOps cfg emptyVDB ops) k).history k) := by
  constructor
  · exact vinv_applyVOps cfg emptyVDB ops hmono
      (fun k2 h => Bool.noConfusion h) (fun r hr => absurd hr (List.not_mem_nil r)) k
  · intro hex
    rw [DeleteByKey_history]
    exact markDeleted_latestTombstoned _ k hex

/-- C7, witness: the invariant on the concrete history upsert (k, 1),
delete k, upsert (k, 3). -/
theorem c7_witness :
    ((objLookup (applyVOps wCfg emptyVDB vOps).base.objects "k").isSome →
      LatestLive (applyVOps wCfg emptyVDB vOps).history "k") ∧
    ((∃ r ∈ (applyVOps wCfg emptyVDB vOps).history, r.key = "k") →
      LatestTombstoned (VIX.DeleteByKey (applyVOps wCfg emptyVDB vOps) "k").history "k") :=
  c7_tombstone_invariant wCfg vOps "k" (by decide)

theorem mem_deleteObjRow (l : List (String × β)) (k : String) (p : String × β)
    (h : p ∈ deleteObjRow l k) : p ∈ l := by
  induction l with
  | nil => cases h
  | cons q rest ih =>
    rw [deleteObjRow] at h
    by_cases hq : q.1 = k
    · rw [if_pos hq] at h
      exact List.mem_cons_of_mem _ (ih h)
    · rw [if_neg hq] at h
      rcases List.mem_cons.mp h with h1 | h1
      · subst h1; exact List.mem_cons_self _ _
      · exact List.mem_cons_of_mem _ (ih h1)

theorem mem_safeDelete_objects (db : DB β) (k : String) (p : String × β)
    (h : p ∈ (TSS.SafeDelete db k).objects) : p ∈ db.objects := by
  rw [TSS.SafeDelete] at h
  by_cases hs : (objLookup db.objects k).isSome
  · rw [if_pos hs] at h
    exact mem_deleteObjRow db.objects k p h
  · rw [if_neg hs] at h
    exact h

theorem encImage_applyVOps (cfg : Config σ β) (db : VDB β) (ops : List (VOp σ))
    (h : EncImage cfg db) : EncImage cfg (applyVOps cfg db ops) := by
  induction ops generalizing db with
  | nil => exact h
  | cons op rest ih =>
    refine ih _ ?_
    cases op with
    | del k =>
      constructor
      · intro p hp
        exact h.1 p (mem_safeDelete_objects db.base k p hp)
      · intro r hr
        obtain ⟨r0, hr0, -, -, hobj⟩ := markDeleted_shape db.history k r hr
        rw [hobj]
        exact h.2 r0 hr0
    | upsert k o v =>
      cases hop : VIX.Upsert cfg db k o v with
      | error e =>
        have happ : applyVOp cfg db (VOp.upsert k o v) = db := by
          rw [applyVOp, hop]
        rw [happ]; exact h
      | ok db2 =>
        have happ : applyVOp cfg db (VOp.upsert k o v) = db2 := by
          rw [applyVOp, hop]
        rw [happ]
        obtain ⟨b, he, hhist, -, -, hmem⟩ := Upsert_ok cfg db k o v db2 hop
        constructor
        · intro p hp
          rcases hmem p hp with h1 | h1
          · exact h.1 p h1
          · exact ⟨o, by rw [h1]; exact he⟩
        · intro r hr
          rw [hhist] at hr
          rcases (mem_upsertHist _ _ _ _ _).mp hr with ⟨hrh, -⟩ | heq
          · exact h.2 r hrh
          · exact ⟨o, by rw [heq]; exact he⟩

theorem decodeHist_ok (cfg : Config σ β) (rows : List (HRow β))
    (h : ∀ r ∈ rows, ∃ x, cfg.dec r.object = .ok x) :
    ∃ l, VIX.decodeHist cfg rows = .ok l ∧
      ∀ o : σ, (o ∈ l ↔ ∃ r ∈ rows, cfg.dec r.object = .ok o) := by
  induction rows with
  | nil =>
    exact ⟨[], rfl, fun o => by simp⟩
  | cons r0 rest ih =>
    obtain ⟨x0, hx0⟩ := h r0 (List.mem_cons_self _ _)
    obtain ⟨l, hl, hmem⟩ := ih (fun r hr => h r (List.mem_cons_of_mem _ hr))
    refine ⟨x0 :: l, ?_, ?_⟩
    · rw [VIX.decodeHist, hx0, hl]
    · intro o
      rw [List.mem_cons, hmem o]
      constructor
      · rintro (h1 | ⟨r, hr, hro⟩)
        · exact ⟨r0, List.mem_cons_self _ _, by rw [hx0, h1]⟩
        · exact ⟨r, List.mem_cons_of_mem _ hr, hro⟩
      · rintro ⟨r, hr, hro⟩
        rcases List.mem_cons.mp hr with h1 | h1
        · subst h1
          rw [hx0] at hro
          injection hro with hro
          exact Or.inl hro.symm
        · exact Or.inr ⟨r, h1, hro⟩

theorem mem_selectAtRevision (hist : List (HRow β)) (R : Int) (r : HRow β) :
    r ∈ VIX.selectAtRevision hist R ↔
      r ∈ hist ∧ r.deleted = false ∧ r.version ≤ R ∧
        VIX.maxVerLE hist r.key R = some r.version := by
  rw [VIX.selectAtRevision, List.mem_filter]
  constructor
  · rintro ⟨hm, hcond⟩
    exact ⟨hm, of_decide_eq_true hcond⟩
  · rintro ⟨hm, hcond⟩
    exact ⟨hm, decide_eq_true hcond⟩

/-- C2: for every history of upserts and deletes with caller-supplied
versions, the historical selector at revision R (modelled from the spec,
the ListOptionIndexer source being absent) succeeds, and an object is in
its result exactly when some history row is a non-tombstoned row at a
version less than or equal to R that is the greatest such version for its
key, and the object is that row's decoded blob; keys whose greatest
version at most R is a tombstone, or with no version at most R, contribute
nothing. -/
theorem c2_time_travel (cfg : Config σ β) (ops : List (VOp σ)) (R : Int) (o : σ)
    (hcodec : ∀ x b, cfg.enc x = .ok b → cfg.dec b = .ok x) :
    ∃ l, VIX.ListAtRevision cfg (applyVOps cfg emptyVDB ops) R = .ok l ∧
      (o ∈ l ↔ ∃ r ∈ (applyVOps cfg emptyVDB ops).history,
        r.deleted = false ∧ r.version ≤ R ∧
        (∀ r2 ∈ (applyVOps cfg emptyVDB ops).history,
          r2.key = r.key → r2.version ≤ R → r2.version ≤ r.version) ∧
        cfg.dec r.object = .ok o) := by
  have henc : EncImage cfg (applyVOps cfg emptyVDB ops) :=
    encImage_applyVOps cfg emptyVDB ops
      ⟨fun p hp => absurd hp (List.not_mem_nil p),
        fun r hr => absurd hr (List.not_mem_nil r)⟩
  have hdecode : ∀ r ∈ VIX.selectAtRevision (applyVOps cfg emptyVDB ops).history R,
      ∃ x, cfg.dec r.object = .ok x := by
    intro r hr
    have hrh := ((mem_selectAtRevision _ R r).mp hr).1
    obtain ⟨x, hx⟩ := henc.2 r hrh
    exact ⟨x, hcodec x r.object hx⟩
  obtain ⟨l, hl, hmem⟩ :=
    decodeHist_ok cfg (VIX.selectAtRevision (applyVOps cfg emptyVDB ops).history R) hdecode
  refine ⟨l, hl, ?_⟩
  rw [hmem o]
  constructor
  · rintro ⟨r, hr, hro⟩
    obtain ⟨hrh, hdel, hle, hmax⟩ := (mem_selectAtRevision _ R r).mp hr
    refine ⟨r, hrh, hdel, hle, ?_, hro⟩
    intro r2 hr2 hk2 hle2
    exact maxVerLE_bound _ r.key R r.version hmax r2 hr2 hk2 hle2
  · rintro ⟨r, hrh, hdel, hle, hbnd, hro⟩
    refine ⟨r, ?_, hro⟩
    rw [mem_selectAtRevision]
    exact ⟨hrh, hdel, hle,
      maxVerLE_eq_of _ r.key R r.version ⟨r, hrh, rfl, rfl, hle⟩ hbnd⟩

/-- C2, witness: the time-travel characterization at revision 2 of the
concrete history upsert (k, 1), delete k, upsert (k, 3). -/
theorem c2_witness :
    ∃ l, VIX.ListAtRevision wCfg (applyVOps wCfg emptyVDB vOps) 2 = .ok l ∧
      ("x" ∈ l ↔ ∃ r ∈ (applyVOps wCfg emptyVDB vOps).history,
        r.deleted = false ∧ r.version ≤ 2 ∧
        (∀ r2 ∈ (applyVOps wCfg emptyVDB vOps).history,
          r2.key = r.key → r2.version ≤ 2 → r2.version ≤ r.version) ∧
        wCfg.dec r.object = .ok "x") :=
  c2_time_travel wCfg vOps 2 "x" (fun x b h => by injection h with h; subst h; rfl)

theorem histLookup_eq_none_iff (hist : List (HRow β)) (k : String) (v : Int) :
    VIX.histLookup hist k v = none ↔ ∀ r ∈ hist, ¬ (r.key = k ∧ r.version = v) := by
  induction hist with
  | nil => simp [VIX.histLookup]
  | cons r0 rest ih =>
    rw [VIX.histLookup]
    by_cases h : r0.key = k ∧ r0.version = v
    · rw [if_pos h]
      constructor
      · intro hv; exact Option.noConfusion hv
      · intro hall; exact absurd h (hall r0 (List.mem_cons_self _ _))
    · rw [if_neg h, ih]
      constructor
      · intro hall r hr
        rcases List.mem_cons.mp hr with h1 | h1
        · subst h1; exact h
        · exact hall r h1
      · intro hall r hr
        exact hall r (List.mem_cons_of_mem _ hr)

theorem histLookup_some (hist : List (HRow β)) (k : String) (v : Int) (r : HRow β)
    (h : VIX.histLookup hist k v = some r) :
    r ∈ hist ∧ r.key = k ∧ r.version = v := by
  induction hist with
  | nil => cases h
  | cons r0 rest ih =>
    rw [VIX.histLookup] at h
    by_cases h0 : r0.key = k ∧ r0.version = v
    · rw [if_pos h0] at h
      injection h with h
      subst h
      exact ⟨List.mem_cons_self _ _, h0⟩
    · rw [if_neg h0] at h
      obtain ⟨hm, hk, hv⟩ := ih h
      exact ⟨List.mem_cons_of_mem _ hm, hk, hv⟩

/-- C8: on every reachable versioned state, GetByKeyAndVersion returns
ok none exactly when no history row has primary key (key, version); when
such a row exists — tombstoned or not, its deleted flag is never consulted
— the row's blob is decoded and returned as (obj, exists = true, nil). -/
theorem c8_get_by_key_and_version (cfg : Config σ β) (ops : List (VOp σ))
    (k : String) (v : Int)
    (hcodec : ∀ x b, cfg.enc x = .ok b → cfg.dec b = .ok x) :
    ((¬ ∃ r ∈ (applyVOps cfg emptyVDB ops).history, r.key = k ∧ r.version = v) →
      VIX.GetByKeyAndVersion cfg (applyVOps cfg emptyVDB ops) k v = .ok none) ∧
    ((∃ r ∈ (applyVOps cfg emptyVDB ops).history, r.key = k ∧ r.version = v) →
      ∃ r, r ∈ (applyVOps cfg emptyVDB ops).history ∧ r.key = k ∧ r.version = v ∧
        ∃ x, cfg.dec r.object = .ok x ∧
          VIX.GetByKeyAndVersion cfg (applyVOps cfg emptyVDB ops) k v = .ok (some x)) := by
  have henc : EncImage cfg (applyVOps cfg emptyVDB ops) :=
    encImage_applyVOps cfg emptyVDB ops
      ⟨fun p hp => absurd hp (List.not_mem_nil p),
        fun r hr => absurd hr (List.not_mem_nil r)⟩
  constructor
  · intro hno
    have hl : VIX.histLookup (applyVOps cfg emptyVDB ops).history k v = none := by
      rw [histLookup_eq_none_iff]
      intro r hr hkv
      exact hno ⟨r, hr, hkv⟩
    rw [VIX.GetByKeyAndVersion, hl]
  · intro hex
    cases hl : VIX.histLookup (applyVOps cfg emptyVDB ops).history k v with
    | none =>
      obtain ⟨r, hr, hkv⟩ := hex
      exact absurd hkv ((histLookup_eq_none_iff _ k v).mp hl r hr)
    | some r =>
      obtain ⟨hm, hk, hv⟩ := histLookup_some _ k v r hl
      obtain ⟨x0, hx0⟩ := henc.2 r hm
      have hdec : cfg.dec r.object = .ok x0 := hcodec x0 r.object hx0
      refine ⟨r, hm, hk, hv, x0, hdec, ?_⟩
      rw [VIX.GetByKeyAndVersion, hl]
      show (match cfg.dec r.object with
            | Except.error e => Except.error e
            | Except.ok o => Except.ok (some o)) = Except.ok (some x0)
      rw [hdec]

/-- C8, witness: the point-query characterization at (k, 1) on the concrete
history — version 1 exists (as a tombstone after the delete) and version 2
does not. -/
theorem c8_witness :
    ((¬ ∃ r ∈ (applyVOps wCfg emptyVDB vOps).history, r.key = "k" ∧ r.version = 1) →
      VIX.GetByKeyAndVersion wCfg (applyVOps wCfg emptyVDB vOps) "k" 1 = .ok none) ∧
    ((∃ r ∈ (applyVOps wCfg emptyVDB vOps).history, r.key = "k" ∧ r.version = 1) →
      ∃ r, r ∈ (applyVOps wCfg emptyVDB vOps).history ∧ r.key = "k" ∧ r.version = 1 ∧
        ∃ x, wCfg.dec r.object = .ok x ∧
          VIX.GetByKeyAndVersion wCfg (applyVOps wCfg emptyVDB vOps) "k" 1 = .ok (some x)) :=
  c8_get_by_key_and_version wCfg vOps "k" 1
    (fun x b h => by injection h with h; subst h; rfl)

theorem checkIndexerNames_error_iff (names : List String) :
    (∃ e, checkIndexerNames names = .error e) ↔
      ∃ n ∈ names, n.contains '\"' = true := by
  induction names with
  | nil => simp [checkIndexerNames]
  | cons n0 rest ih =>
    rw [checkIndexerNames]
    by_cases h : n0.contains '\"'
    · rw [if_pos h]
      constructor
      · intro _; exact ⟨n0, List.mem_cons_self _ _, h⟩
      · intro _; exact ⟨_, rfl⟩
    · rw [if_neg h, ih]
      constructor
      · rintro ⟨n, hn, hc⟩
        exact ⟨n, List.mem_cons_of_mem _ hn, hc⟩
      · rintro ⟨n, hn, hc⟩
        rcases List.mem_cons.mp hn with h1 | h1
        · subst h1; exact absurd hc h
        · exact ⟨n, h1, hc⟩

/-- C9: store construction panics (modelled as the error outcome of
initSchema, raised before any schema statement runs) exactly when some
registered indexer name contains a double-quote character; with no such
name the guard never trips and the schema statements are applied. -/
theorem c9_quote_guard (names : List String) :
    ((∃ n ∈ names, n.contains '\"' = true) ↔ (∃ e, initSchema names = .error e)) ∧
    ((∀ n ∈ names, n.contains '\"' = false) ↔ initSchema names = .ok schemaStmts) := by
  have herr := checkIndexerNames_error_iff names
  constructor
  · rw [← herr]
    constructor
    · rintro ⟨e, he⟩
      rw [initSchema, he]
      exact ⟨e, rfl⟩
    · rintro ⟨e, he⟩
      rw [initSchema] at he
      cases hc : checkIndexerNames names with
      | error e0 => exact ⟨e0, rfl⟩
      | ok u => rw [hc] at he; cases he
  · constructor
    · intro hall
      rw [initSchema]
      cases hc : checkIndexerNames names with
      | error e0 =>
        obtain ⟨n, hn, hcon⟩ := herr.mp ⟨e0, hc⟩
        rw [hall n hn] at hcon
        cases hcon
      | ok u => rfl
    · intro hok n hn
      by_cases hc : n.contains '\"'
      · obtain ⟨e, he⟩ := herr.mpr ⟨n, hn, hc⟩
        rw [initSchema, he] at hok
        cases hok
      · rwa [Bool.not_eq_true] at hc

end Vai
